import Mathlib

/-!
Verification development for the finsplit repository (src/parsers.py and the
debt-settlement routine `simplify_debts` of src/app.py).

The Python sources are shallowly embedded here:
* strings are modelled as `List Char` (wrappers take `String`),
* Python `float` amounts are modelled as exact rationals `ℚ`,
* Python's `float(...)` string conversion is modelled by `pyFloat`, covering the
  sign/digits/underscore/single-dot fragment that the parsers' tokens live in
  (no exponents, no inf/nan, which cannot be produced by these call sites'
  relevant inputs),
* the concrete regular expressions of parsers.py are embedded as deterministic
  scanners that reproduce the leftmost-match--with-backtracking behaviour of
  Python's `re` on exactly those patterns,
* `datetime.strptime` date validation is modelled by a Gregorian calendar check,
* Python's case conversion and whitespace sets are modelled for the ASCII and
  basic-Cyrillic ranges actually used by the repository's vocabularies.

Fallible code (the uncaught `float` call in `parse_sms_uzcard`, CSV byte
decoding) is modelled with `Except`/`Option`.
-/

set_option allowUnsafeReducibility true

attribute [semireducible] Rat.add Rat.mul Rat.sub Rat.inv Rat.ofScientific

deriving instance DecidableEq for Except

namespace Finsplit

/-- Python's whitespace set (`str.isspace`, regex `\s`), restricted to the
code points it actually contains: ASCII control whitespace, NEL, NBSP, Ogham
space, the U+2000 block, line/paragraph separators, narrow/medium spaces and
the ideographic space. -/
def isPySpace (c : Char) : Bool :=
  let n := c.toNat
  (9 ≤ n && n ≤ 13) || n = 32 || (28 ≤ n && n ≤ 31) || n = 0x85 || n = 0xA0 ||
  n = 0x1680 || (0x2000 ≤ n && n ≤ 0x200A) || n = 0x2028 || n = 0x2029 ||
  n = 0x202F || n = 0x205F || n = 0x3000

/-- Python `str.lower` restricted to ASCII letters and the basic Cyrillic
capitals А..Я and Ё used by the parsers' keyword tables. Other characters are
returned unchanged. -/
def lcPy (c : Char) : Char :=
  let n := c.toNat
  if 65 ≤ n ∧ n ≤ 90 then Char.ofNat (n + 32)
  else if 0x410 ≤ n ∧ n ≤ 0x42F then Char.ofNat (n + 32)
  else if n = 0x401 then Char.ofNat 0x451
  else c

/-- Python `str.upper` restricted likewise (ASCII letters, Cyrillic а..я, ё). -/
def ucPy (c : Char) : Char :=
  let n := c.toNat
  if 97 ≤ n ∧ n ≤ 122 then Char.ofNat (n - 32)
  else if 0x430 ≤ n ∧ n ≤ 0x44F then Char.ofNat (n - 32)
  else if n = 0x451 then Char.ofNat 0x401
  else c

def lowerL (l : List Char) : List Char := l.map lcPy

def upperL (l : List Char) : List Char := l.map ucPy

/-- Case-insensitive character comparison as used by `re.IGNORECASE`. -/
def ciEq (a b : Char) : Bool := lcPy a = lcPy b

/-- Python `str.strip()`: drop leading and trailing whitespace. -/
def pyStrip (l : List Char) : List Char :=
  ((l.dropWhile isPySpace).reverse.dropWhile isPySpace).reverse

/-- Does `pat` match at the front of `s` (character-wise equality)? -/
def matchFront : List Char → List Char → Bool
  | [], _ => true
  | _ :: _, [] => false
  | p :: ps, c :: cs => p = c && matchFront ps cs

/-- Does `pat` match at the front of `s`, case-insensitively? -/
def matchFrontCI : List Char → List Char → Bool
  | [], _ => true
  | _ :: _, [] => false
  | p :: ps, c :: cs => ciEq p c && matchFrontCI ps cs

/-- Python `pat in s`: `pat` occurs as a contiguous substring of `s`. -/
def occursIn (pat : List Char) : List Char → Bool
  | [] => pat.isEmpty
  | c :: cs => matchFront pat (c :: cs) || occursIn pat cs

/-- Case-insensitive substring occurrence (`re.search` of a literal word with
`re.IGNORECASE`). -/
def occursCI (pat : List Char) : List Char → Bool
  | [] => pat.isEmpty
  | c :: cs => matchFrontCI pat (c :: cs) || occursCI pat cs

/-- Split a character list at every occurrence of the separator character
(Python `str.split(sep)` for a one-character separator). -/
def splitOnC (sep : Char) : List Char → List (List Char)
  | [] => [[]]
  | c :: cs =>
    if c = sep then [] :: splitOnC sep cs
    else match splitOnC sep cs with
      | [] => [[c]]
      | p :: ps => (c :: p) :: ps

/-- Numeric value of a decimal digit character. -/
def dVal (c : Char) : Nat := c.toNat - 48

/-- Value of a digit list read in base 10 (non-digits contribute garbage;
callers establish digitness). -/
def digitsToNat (l : List Char) : Nat := l.foldl (fun n c => 10 * n + dVal c) 0

/-- Digit run with Python underscore rules: after the leading digit, an
underscore must be immediately followed by another digit. Returns the value
and the number of digits consumed (underscores excluded). -/
def runAux : Nat → Nat → List Char → Option (Nat × Nat)
  | n, k, [] => some (n, k)
  | n, k, c :: r =>
    if c = '_' then
      match r with
      | c2 :: r2 =>
        if c2.isDigit then runAux (10 * n + dVal c2) (k + 1) r2 else none
      | [] => none
    else if c.isDigit then runAux (10 * n + dVal c) (k + 1) r
    else none

/-- A nonempty digit run (Python float grammar `d(_?d)*`). -/
def runVal (l : List Char) : Option (Nat × Nat) :=
  match l with
  | [] => none
  | c :: r => if c.isDigit then runAux (dVal c) 1 r else none

/-- Model of CPython's `float(str)` on the fragment produced by the parsers'
cleaned tokens: surrounding whitespace stripped, optional sign, then either
`digits`, `digits.`, `.digits` or `digits.digits`, with underscores allowed
strictly between digits. Anything else (including interior whitespace, a
second dot, exponents) yields `none`, i.e. a `ValueError` in Python. -/
def pyFUAux (intPart rest : List Char) : Option ℚ :=
  match rest with
  | [] => (runVal intPart).map (fun p => (p.1 : ℚ))
  | '.' :: frac =>
    if frac.any (fun c => ¬ (c.isDigit || c = '_')) then none
    else match intPart, frac with
      | [], [] => none
      | [], f =>
        (runVal f).map (fun p => (p.1 : ℚ) / ((10 : ℚ) ^ p.2))
      | ip, [] =>
        (runVal ip).map (fun p => (p.1 : ℚ))
      | ip, f =>
        match runVal ip, runVal f with
        | some p, some q => some ((p.1 : ℚ) + (q.1 : ℚ) / ((10 : ℚ) ^ q.2))
        | _, _ => none
  | _ => none

def pyFloatUnsigned (t : List Char) : Option ℚ :=
  pyFUAux (t.takeWhile fun c => c.isDigit || c = '_')
    (t.drop (t.takeWhile fun c => c.isDigit || c = '_').length)

def pyFloat (s : List Char) : Option ℚ :=
  match pyStrip s with
  | [] => pyFloatUnsigned []
  | c :: r =>
    if c = '-' then (pyFloatUnsigned r).map Neg.neg
    else if c = '+' then pyFloatUnsigned r
    else pyFloatUnsigned (c :: r)

/-! ## Store-to-Category map and classifier (parsers.py lines 14–79) -/

/-- `STORE_CATEGORY_MAP` of parsers.py, in source (insertion) order. Python
dicts preserve insertion order, so a `List` of pairs is the faithful model. -/
def STORE_CATEGORY_MAP : List (String × String) := [
  ("korzinka", "Food"), ("makro", "Food"), ("macro", "Food"),
  ("havas", "Food"), ("carrefour", "Food"), ("magnum", "Food"),
  ("magnit", "Food"), ("oqtepa", "Food"), ("evos", "Food"),
  ("burger", "Food"), ("restaurant", "Food"), ("restoran", "Food"),
  ("cafe", "Food"), ("coffee", "Food"), ("kofe", "Food"),
  ("stolovaya", "Food"), ("oshxona", "Food"), ("lavash", "Food"),
  ("choyxona", "Food"), ("bazar", "Food"), ("supermarket", "Food"),
  ("minimarket", "Food"), ("produkti", "Food"), ("bakkaleja", "Food"),
  ("non", "Food"), ("go\x27sht", "Food"), ("meva", "Food"),
  ("yandex go", "Transport"), ("yandex taxi", "Transport"),
  ("uber", "Transport"), ("mycar", "Transport"),
  ("uzairways", "Transport"), ("avto", "Transport"),
  ("benzin", "Transport"), ("toplivo", "Transport"),
  ("zapravka", "Transport"), ("gaz station", "Transport"),
  ("metro", "Transport"), ("taksi", "Transport"),
  ("beeline", "Utilities"), ("ucell", "Utilities"),
  ("mobiuz", "Utilities"), ("uzmobile", "Utilities"),
  ("turon telecom", "Utilities"), ("uztelecom", "Utilities"),
  ("elektr", "Utilities"), ("kommunal", "Utilities"),
  ("issiqlik", "Utilities"), ("suv", "Utilities"),
  ("internet", "Utilities"), ("suvokava", "Utilities"),
  ("mediapark", "Shopping"), ("texnomart", "Shopping"),
  ("zara", "Shopping"), ("lcwaikiki", "Shopping"),
  ("samsung", "Shopping"), ("apple", "Shopping"),
  ("kiyim", "Shopping"), ("poyabzal", "Shopping"),
  ("mebel", "Shopping"), ("bozor", "Shopping"),
  ("apteka", "Health"), ("dorixona", "Health"),
  ("pharmacy", "Health"), ("klinika", "Health"),
  ("hospital", "Health"), ("poliklinika", "Health"),
  ("stomatolog", "Health"), ("labaratoriya", "Health"),
  ("kinoteatr", "Entertainment"), ("cinema", "Entertainment"),
  ("magic city", "Entertainment"), ("aquapark", "Entertainment"),
  ("park", "Entertainment"), ("konsert", "Entertainment"),
  ("kitob", "Education"), ("book", "Education"),
  ("kurs", "Education"), ("talim", "Education"),
  ("universitet", "Education"), ("maktab", "Education"),
  ("repetitor", "Education"),
  ("ijara", "Housing"), ("arenda", "Housing"), ("kvartira", "Housing")]

/-- The fixed closed category set of the spec. -/
def CATEGORIES : List String :=
  ["Food", "Transport", "Utilities", "Shopping", "Health", "Entertainment",
   "Education", "Housing", "Other"]

/-- The lookup loop of `guess_category`: first keyword (in table order) that
is a substring of the prepared merchant name wins. -/
def lookupCategory : List (String × String) → List Char → String
  | [], _ => "Other"
  | (k, cat) :: rest, nameL =>
    if occursIn k.toList nameL then cat else lookupCategory rest nameL

/-- `guess_category` of parsers.py. The argument is `Option String` because
the Python callers may pass `None`; both `None` and the empty string are falsy
and short-circuit to `"Other"`. -/
def guess_category (merchant_name : Option String) : String :=
  match merchant_name with
  | none => "Other"
  | some s =>
    if s = "" then "Other"
    else lookupCategory STORE_CATEGORY_MAP (pyStrip (lowerL s.toList))

/-! ## Receipt OCR parser (parsers.py lines 84–172)

The total-amount regex
`(?:JAMI|ИТОГО|ИТОГ|TOTAL|ЖАМИ|HAMMASI|ВСЕГО)\s*[:=]?\s*([\d\s.,]+)` with
`re.IGNORECASE` is embedded as a deterministic scanner. Because the group's
character class contains `\s`, Python's backtracking can make the group a
single whitespace character when no amount-class character follows the
keyword/separator; `totalTail`/`totalSep` reproduce exactly that case
analysis of the backtracking engine. -/

/-- The cleaning `group.replace(' ', '').replace(',', '.')` shared by the
receipt amount paths. -/
def cleanAmt (g : List Char) : List Char :=
  (g.filter fun c => c ≠ ' ').map fun c => if c = ',' then '.' else c

/-- The anchored check `re.match(r'^\d+\.\d{3}$', s)`. -/
def dotThree (s : List Char) : Bool :=
  let ds := s.takeWhile Char.isDigit
  decide (ds ≠ []) &&
    match s.drop ds.length with
    | '.' :: bs => decide (bs.length = 3) && bs.all Char.isDigit
    | _ => false

/-- The Uzbek-locale normalization on the cleaned amount string: dot as
thousands separator for `digits.3digits`, all dots removed when more than one
dot remains. -/
def receiptNormCore (s : List Char) : List Char :=
  let s1 := if dotThree s then s.filter (fun c => c ≠ '.') else s
  if 2 ≤ s1.count '.' then s1.filter (fun c => c ≠ '.') else s1

def receiptNormalize (g : List Char) : List Char :=
  receiptNormCore (cleanAmt g)

def receiptAmtOfGroup (g : List Char) : Option ℚ :=
  pyFloat (receiptNormalize g)

/-! Fallback amount scan: `re.finditer(r'([\d\s]{1,15}[.,]\d{2})', line)`. -/

structure PDate where
  year : Nat
  month : Nat
  day : Nat
deriving DecidableEq, Repr

def isLeap (y : Nat) : Bool := y % 4 = 0 && (y % 100 ≠ 0 || y % 400 = 0)

def daysInMonth (y m : Nat) : Nat :=
  if m = 2 then (if isLeap y then 29 else 28)
  else if m = 4 ∨ m = 6 ∨ m = 9 ∨ m = 11 then 30
  else 31

def validDate (y m d : Nat) : Bool :=
  1 ≤ y && y ≤ 9999 && 1 ≤ m && m ≤ 12 && 1 ≤ d && d ≤ daysInMonth y m

def dd (a b : Char) : Nat := 10 * dVal a + dVal b

/-- `(\d{2})[./](\d{2})[./](\d{4})` at one position, returning
(day, month, year) groups. -/
def p1At : List Char → Option (Nat × Nat × Nat)
  | a :: b :: s1 :: c :: d :: s2 :: e :: f :: g :: h :: _ =>
    if a.isDigit ∧ b.isDigit ∧ (s1 = '.' ∨ s1 = '/') ∧ c.isDigit ∧ d.isDigit ∧
       (s2 = '.' ∨ s2 = '/') ∧ e.isDigit ∧ f.isDigit ∧ g.isDigit ∧ h.isDigit then
      some (dd a b, dd c d, digitsToNat [e, f, g, h])
    else none
  | _ => none

/-- `re.search`: first position (left to right) where the pattern matches. -/
def scanFor (f : List Char → Option (Nat × Nat × Nat)) :
    List Char → Option (Nat × Nat × Nat)
  | [] => none
  | l@(_ :: rest) => (f l).orElse fun _ => scanFor f rest

def isUzClass (c : Char) : Bool := c.isDigit || isPySpace c || c = ','

/-- The currency suffix alternation `(?:UZS|сум)` under `re.IGNORECASE`. -/
def uzsSuffix (l : List Char) : Bool :=
  matchFrontCI "UZS".toList l || matchFrontCI "сум".toList l

def uzAfterSign : List Char → List Char
  | '-' :: r => r
  | '+' :: r => r
  | l => l

/-- One attempt of `[-+]?([\d\s,]+\.\d{2})\s*(?:UZS|сум)` at a position.
The mandatory dot after the greedy class run makes the engine deterministic
here: only the maximal run can succeed. Returns the group. -/
def uzTryAt (l : List Char) : Option (List Char) :=
  let r := uzAfterSign l
  let run := r.takeWhile isUzClass
  if run.isEmpty then none
  else
    match r.drop run.length with
    | '.' :: d1 :: d2 :: rest =>
      if d1.isDigit ∧ d2.isDigit ∧ uzsSuffix (rest.dropWhile isPySpace) then
        some (run ++ ['.', d1, d2])
      else none
    | _ => none

/-- `re.search` for the UzCard amount: leftmost start position (which includes
a consumed sign character, as `amt_match.start()` does) plus the group. -/
def uzAmtScan : Nat → List Char → Option (Nat × List Char)
  | _, [] => none
  | p, l@(_ :: rest) =>
    match uzTryAt l with
    | some g => some (p, g)
    | none => uzAmtScan (p + 1) rest

/-- `[Kk]arta\s*\*(\d{4})` at one position (case-sensitive but for the first
letter). -/
def uzCardAt : List Char → Option (List Char)
  | c :: rest =>
    if (c = 'K' ∨ c = 'k') ∧ matchFront "arta".toList rest then
      match (rest.drop 4).dropWhile isPySpace with
      | '*' :: d1 :: d2 :: d3 :: d4 :: _ =>
        if d1.isDigit ∧ d2.isDigit ∧ d3.isDigit ∧ d4.isDigit then
          some [d1, d2, d3, d4]
        else none
      | _ => none
    else none
  | [] => none

def uzCardScan : List Char → Option (List Char)
  | [] => none
  | l@(_ :: rest) => (uzCardAt l).orElse fun _ => uzCardScan rest

/-- `re.split(r'[.;]\s*', text)`: split at dot/semicolon, consuming the
following whitespace run. -/
def splitDS : Nat → List Char → List (List Char)
  | _, [] => [[]]
  | 0, l => [l]
  | fuel + 1, c :: cs =>
    if c = '.' ∨ c = ';' then [] :: splitDS fuel (cs.dropWhile isPySpace)
    else
      match splitDS fuel cs with
      | [] => [[c]]
      | p :: ps => (c :: p) :: ps

/-- A date-shaped substring `\d{2}[./]\d{2}[./]\d{2,4}` somewhere in the
segment (existence only, so two trailing digits suffice). -/
def dateishAt : List Char → Bool
  | a :: b :: s1 :: c :: d :: s2 :: e :: f :: _ =>
    a.isDigit && b.isDigit && (s1 = '.' || s1 = '/') && c.isDigit && d.isDigit &&
    (s2 = '.' || s2 = '/') && e.isDigit && f.isDigit
  | _ => false

def dateish : List Char → Bool
  | [] => false
  | l@(_ :: rest) => dateishAt l || dateish rest

/-- The UzCard merchant noise vocabulary (all checked case-insensitively, so
the `Karta|karta` and `Balans|balans` source alternatives collapse). -/
def uzNoise (part : List Char) : Bool :=
  occursCI "UZS".toList part || occursCI "сум".toList part ||
  occursCI "karta".toList part || occursCI "balans".toList part || dateish part

/-- The Humo merchant noise vocabulary. -/
def humoNoise (part : List Char) : Bool :=
  occursCI "UZS".toList part || occursCI "сум".toList part ||
  occursCI "humo".toList part || occursCI "ost".toList part ||
  occursCI "spisanie".toList part || occursCI "popolnenie".toList part ||
  occursCI "zachislenie".toList part || occursCI "oplata".toList part ||
  occursCI "chiqim".toList part || occursCI "kirim".toList part || dateish part

/-- The character class of `^[\d\s,.:+\-]+$` (purely numeric/punctuation
segments are not merchants). -/
def isNumPunct (c : Char) : Bool :=
  c.isDigit || isPySpace c || c = ',' || c = '.' || c = ':' || c = '+' || c = '-'

/-- The shared merchant-selection loop: first stripped segment of length at
least 2 that carries no noise word and is not purely numeric/punctuation. -/
def pickMerchant (noise : List Char → Bool) (parts : List (List Char)) :
    Option (List Char) :=
  parts.findSome? fun part =>
    let p := pyStrip part
    if p.length < 2 then none
    else if noise p then none
    else if p.all isNumPunct then none
    else some p

/-- The single SMS date pattern `(\d{2})[./](\d{2})[./](\d{4})` plus
`strptime('%d.%m.%Y')` validation (failure is swallowed). -/
def smsDate (chars : List Char) : Option PDate :=
  match scanFor p1At chars with
  | some (d, m, y) => if validDate y m d then some ⟨y, m, d⟩ else none
  | none => none

structure SmsTxn where
  amount : Option ℚ
  merchant : Option (List Char)
  date : Option PDate
  card : Option (List Char)
  category : String
  currency : String
  type : String
  description : List Char
  raw : List Char
deriving DecidableEq, Repr

/-- The comma/space removal `amt_str.replace(',', '').replace(' ', '')`. -/
def smsCleanAmt (g : List Char) : List Char :=
  (g.filter fun c => c ≠ ',').filter fun c => c ≠ ' '

/-- `parse_sms_uzcard` of parsers.py. The `float` call on the matched amount
is not guarded by `try` in the source, so an amount string with interior
non-space whitespace raises `ValueError`; this is the `Except.error` case. -/
def parseSmsUzcardL (chars : List Char) : Except Unit SmsTxn :=
  let card := (uzCardScan chars).map fun ds => '*' :: ds
  let merchant := pickMerchant uzNoise (splitDS chars.length chars)
  let date := smsDate chars
  let category :=
    match merchant with
    | some m => guess_category (some (String.mk m))
    | none => "Other"
  let descr := merchant.getD []
  match uzAmtScan 0 chars with
  | none =>
    .ok { amount := none, merchant, date, card, category, currency := "UZS",
          type := "expense", description := descr, raw := chars }
  | some (start, g) =>
    match pyFloat (smsCleanAmt g) with
    | none => .error ()
    | some q =>
      let ty :=
        if (chars.take start).contains '+' ∨
           occursIn "popolnenie".toList (lowerL chars) ∨
           occursIn "zachislenie".toList (lowerL chars) then "income"
        else "expense"
      .ok { amount := some q, merchant, date, card, category, currency := "UZS",
            type := ty, description := descr, raw := chars }

def parse_sms_uzcard (text : String) : Except Unit SmsTxn :=
  parseSmsUzcardL text.toList

/-! Humo amount pattern. Both the action-keyword form and the bare fallback
share the greedy-with-backtracking core `([\d\s,]+(?:\.\d{2})?)\s*(?:UZS|сум)`:
class-run lengths are tried longest first, for each the optional
two-decimals group is tried with-then-without, and `\s*` before the currency
suffix is deterministic because the suffix starts with a non-space. -/

/-- Optional `(?:\.\d{2})?` then `\s*(?:UZS|сум)` after a candidate group. -/
def humoDotSuffix (g rest : List Char) : Option (List Char) :=
  match rest with
  | '.' :: d1 :: d2 :: rest2 =>
    if d1.isDigit ∧ d2.isDigit ∧ uzsSuffix (rest2.dropWhile isPySpace) then
      some (g ++ ['.', d1, d2])
    else if uzsSuffix (rest.dropWhile isPySpace) then some g
    else none
  | _ => if uzsSuffix (rest.dropWhile isPySpace) then some g else none

def humoTryK : Nat → List Char → Option (List Char)
  | 0, _ => none
  | k + 1, r =>
    match humoDotSuffix (r.take (k + 1)) (r.drop (k + 1)) with
    | some g => some g
    | none => humoTryK k r

def humoTryRun (r : List Char) : Option (List Char) :=
  humoTryK (r.takeWhile isUzClass).length r

/-- Backtracking over the length of the mandatory `\s+` after the action
keyword (longest first; the class run may then start inside the whitespace). -/
def humoTryWs : Nat → List Char → Option (List Char)
  | 0, _ => none
  | s + 1, after =>
    match humoTryRun (after.drop (s + 1)) with
    | some g => some g
    | none => humoTryWs s after

def humoKeywords : List (List Char) :=
  ["Spisanie".toList, "Popolnenie".toList, "Zachislenie".toList,
   "Oplata".toList, "Chiqim".toList, "Kirim".toList]

def humoPrimAt (l : List Char) : Option (List Char) :=
  (humoKeywords.filterMap fun kw =>
    if matchFrontCI kw l then
      let after := l.drop kw.length
      humoTryWs (after.takeWhile isPySpace).length after
    else none).head?

def humoPrimScan : List Char → Option (List Char)
  | [] => none
  | l@(_ :: rest) => (humoPrimAt l).orElse fun _ => humoPrimScan rest

def humoFbScan : List Char → Option (List Char)
  | [] => none
  | l@(_ :: rest) => (humoTryRun l).orElse fun _ => humoFbScan rest

/-- `HUMO\s*\*(\d{4})` with `re.IGNORECASE` at one position. -/
def humoCardAt (l : List Char) : Option (List Char) :=
  if matchFrontCI "HUMO".toList l then
    match (l.drop 4).dropWhile isPySpace with
    | '*' :: d1 :: d2 :: d3 :: d4 :: _ =>
      if d1.isDigit ∧ d2.isDigit ∧ d3.isDigit ∧ d4.isDigit then
        some [d1, d2, d3, d4]
      else none
    | _ => none
  else none

def humoCardScan : List Char → Option (List Char)
  | [] => none
  | l@(_ :: rest) => (humoCardAt l).orElse fun _ => humoCardScan rest

/-- `parse_sms_humo` of parsers.py (total: its `float` call is guarded). -/
def parseSmsHumoL (chars : List Char) : SmsTxn :=
  let card := (humoCardScan chars).map fun ds => "HUMO *".toList ++ ds
  let ty :=
    if occursCI "popolnenie".toList chars || occursCI "zachislenie".toList chars ||
       occursCI "kirim".toList chars then "income"
    else "expense"
  let amount :=
    match (humoPrimScan chars).orElse fun _ => humoFbScan chars with
    | some g => pyFloat (smsCleanAmt g)
    | none => none
  let merchant := pickMerchant humoNoise (splitDS chars.length chars)
  let category :=
    match merchant with
    | some m => guess_category (some (String.mk m))
    | none => "Other"
  { amount, merchant, date := smsDate chars, card, category, currency := "UZS",
    type := ty, description := merchant.getD [], raw := chars }

/-- Split a whitespace run at its last newline: returns the part up to and
including that newline, and the remainder. -/
def splitLastNl : List Char → Option (List Char × List Char)
  | [] => none
  | c :: cs =>
    match splitLastNl cs with
    | some (a, b) => some (c :: a, b)
    | none => if c = '\n' then some ([c], cs) else none

/-- `re.split(r'\n\s*\n', text)`: a match is a newline whose following
whitespace run contains another newline; the greedy `\s*` backtracks to end
the match at the last newline of the run. -/
def blankSplit : Nat → List Char → List (List Char)
  | _, [] => [[]]
  | 0, l => [l]
  | fuel + 1, c :: cs =>
    if c = '\n' then
      let w := cs.takeWhile isPySpace
      match splitLastNl w with
      | some (_, after) =>
        [] :: blankSplit fuel (after ++ cs.drop w.length)
      | none =>
        match blankSplit fuel cs with
        | [] => [[c]]
        | p :: ps => (c :: p) :: ps
    else
      match blankSplit fuel cs with
      | [] => [[c]]
      | p :: ps => (c :: p) :: ps

/-- The zero-width lookahead `(?=(?:Karta|HUMO)\s*\*\d{4})` (IGNORECASE). -/
def markerAt (l : List Char) : Bool :=
  let tail :=
    if matchFrontCI "Karta".toList l then some (l.drop 5)
    else if matchFrontCI "HUMO".toList l then some (l.drop 4)
    else none
  match tail with
  | some r =>
    match r.dropWhile isPySpace with
    | '*' :: d1 :: d2 :: d3 :: d4 :: _ =>
      d1.isDigit && d2.isDigit && d3.isDigit && d4.isDigit
    | _ => false
  | none => false

/-- `re.split` on the zero-width marker lookahead: a piece boundary before
every position where the marker matches. -/
def markerSplit : Nat → List Char → List (List Char)
  | _, [] => [[]]
  | 0, l => [l]
  | fuel + 1, l@(c :: cs) =>
    let parts := markerSplit fuel cs
    let parts' := match parts with
      | [] => [[c]]
      | p :: ps => (c :: p) :: ps
    if markerAt l then [] :: parts' else parts'

/-- Truthiness of `parsed.get('amount')`: present and nonzero. -/
def truthyAmt (t : SmsTxn) : Bool :=
  match t.amount with
  | some q => q ≠ 0
  | none => false

/-- The chunk loop of `parse_sms_bulk`: strip, dispatch on the issuer marker
word, keep results with truthy amounts, in input order. An uncaught
`ValueError` from `parse_sms_uzcard` propagates. -/
def processChunks : List (List Char) → Except Unit (List SmsTxn)
  | [] => .ok []
  | ch :: rest =>
    let c := pyStrip ch
    if c.isEmpty then processChunks rest
    else if occursIn "humo".toList (lowerL c) then
      let parsed := parseSmsHumoL c
      (processChunks rest).map fun rs =>
        if truthyAmt parsed then parsed :: rs else rs
    else if occursIn "karta".toList (lowerL c) then
      match parseSmsUzcardL c with
      | .error e => .error e
      | .ok parsed =>
        (processChunks rest).map fun rs =>
          if truthyAmt parsed then parsed :: rs else rs
    else
      match parseSmsUzcardL c with
      | .error e => .error e
      | .ok parsed =>
        (processChunks rest).map fun rs =>
          if truthyAmt parsed then parsed :: rs else rs

/-- `parse_sms_bulk` of parsers.py. -/
def parseSmsBulkL (chars : List Char) : Except Unit (List SmsTxn) :=
  let stripped := pyStrip chars
  if stripped.isEmpty then .ok []
  else
    let chunks0 := blankSplit stripped.length stripped
    let chunks :=
      if chunks0.length = 1 then
        ((markerSplit stripped.length stripped).map pyStrip).filter
          fun c => ¬ c.isEmpty
      else chunks0
    processChunks chunks

def parse_sms_bulk (text_block : String) : Except Unit (List SmsTxn) :=
  parseSmsBulkL text_block.toList

/-! ## CSV statement parser (parsers.py lines 337–440)

Byte decoding follows the source: UTF-8 first, then cp1251, no third
fallback. `utf8Decode` is the standard strict decoder (overlongs, surrogates
and out-of-range sequences rejected, as CPython's strict codec does);
`cp1251Decode` fails exactly on byte 0x98, the single unassigned cp1251 byte.
The row model covers unquoted CSV text (the reader's quoting feature is not
exercised by this repository's inputs): rows are newline-separated, a final
empty line is not a row, a blank line is the empty row, and cells are split
on the detected delimiter. -/

def contB (b : Nat) : Bool := 0x80 ≤ b && b ≤ 0xBF

def utf8Decode : List Nat → Option (List Char)
  | [] => some []
  | b1 :: t1 =>
    if b1 < 0x80 then (utf8Decode t1).map (Char.ofNat b1 :: ·)
    else if 0xC2 ≤ b1 ∧ b1 ≤ 0xDF then
      match t1 with
      | b2 :: t2 =>
        if contB b2 then
          (utf8Decode t2).map (Char.ofNat ((b1 - 0xC0) * 0x40 + (b2 - 0x80)) :: ·)
        else none
      | [] => none
    else if 0xE0 ≤ b1 ∧ b1 ≤ 0xEF then
      match t1 with
      | b2 :: b3 :: t3 =>
        let lo2 := if b1 = 0xE0 then 0xA0 else 0x80
        let hi2 := if b1 = 0xED then 0x9F else 0xBF
        if lo2 ≤ b2 ∧ b2 ≤ hi2 ∧ contB b3 = true then
          (utf8Decode t3).map
            (Char.ofNat ((b1 - 0xE0) * 0x1000 + (b2 - 0x80) * 0x40 + (b3 - 0x80)) :: ·)
        else none
      | _ => none
    else if 0xF0 ≤ b1 ∧ b1 ≤ 0xF4 then
      match t1 with
      | b2 :: b3 :: b4 :: t4 =>
        let lo2 := if b1 = 0xF0 then 0x90 else 0x80
        let hi2 := if b1 = 0xF4 then 0x8F else 0xBF
        if lo2 ≤ b2 ∧ b2 ≤ hi2 ∧ contB b3 = true ∧ contB b4 = true then
          (utf8Decode t4).map
            (Char.ofNat ((b1 - 0xF0) * 0x40000 + (b2 - 0x80) * 0x1000 +
              (b3 - 0x80) * 0x40 + (b4 - 0x80)) :: ·)
        else none
      | _ => none
    else none

/-- Code points for cp1251 bytes 0x80..0xBF (0x98 is unassigned; it is
rejected before this table is consulted). -/
def cp1251Hi : List Nat :=
  [0x402, 0x403, 0x201A, 0x453, 0x201E, 0x2026, 0x2020, 0x2021,
   0x20AC, 0x2030, 0x409, 0x2039, 0x40A, 0x40C, 0x40B, 0x40F,
   0x452, 0x2018, 0x2019, 0x201C, 0x201D, 0x2022, 0x2013, 0x2014,
   0, 0x2122, 0x459, 0x203A, 0x45A, 0x45C, 0x45B, 0x45F,
   0xA0, 0x40E, 0x45E, 0x408, 0xA4, 0x490, 0xA6, 0xA7,
   0x401, 0xA9, 0x404, 0xAB, 0xAC, 0xAD, 0xAE, 0x407,
   0xB0, 0xB1, 0x406, 0x456, 0x491, 0xB5, 0xB6, 0xB7,
   0x451, 0x2116, 0x454, 0xBB, 0x458, 0x405, 0x455, 0x457]

def cp1251Byte (b : Nat) : Option Char :=
  if b < 0x80 then some (Char.ofNat b)
  else if b = 0x98 then none
  else if 0xC0 ≤ b ∧ b ≤ 0xFF then some (Char.ofNat (0x410 + (b - 0xC0)))
  else (cp1251Hi.get? (b - 0x80)).map Char.ofNat

def cp1251Decode (bs : List Nat) : Option (List Char) :=
  bs.mapM cp1251Byte

/-- Delimiter detection on the header line only. -/
def csvDelim (chars : List Char) : Char :=
  if (chars.takeWhile fun c => c ≠ '\n').contains ';' then ';' else ','

def dropLastEmpty (ls : List (List Char)) : List (List Char) :=
  match ls.getLast? with
  | some [] => ls.dropLast
  | _ => ls

/-- `list(csv.reader(io.StringIO(text), delimiter=delim))` on unquoted text. -/
def csvRows (chars : List Char) : List (List (List Char)) :=
  (dropLastEmpty (splitOnC '\n' chars)).map fun line =>
    if line.isEmpty then [] else splitOnC (csvDelim chars) line

structure ColMap where
  date : Option Nat := none
  amount : Option Nat := none
  description : Option Nat := none
  credit : Option Nat := none
  debit : Option Nat := none
  currency : Option Nat := none
deriving DecidableEq, Repr

def dateSyns : List (List Char) :=
  ["date".toList, "дата".toList, "sana".toList, "transaction date".toList,
   "дата операции".toList]

def amountSyns : List (List Char) :=
  ["amount".toList, "сумма".toList, "summa".toList, "miqdor".toList,
   "sum".toList, "сумма операции".toList]

def descSyns : List (List Char) :=
  ["description".toList, "описание".toList, "tavsif".toList, "details".toList,
   "merchant".toList, "назначение".toList, "наименование".toList]

def creditSyns : List (List Char) :=
  ["credit".toList, "кредит".toList, "kirim".toList, "приход".toList]

def debitSyns : List (List Char) :=
  ["debit".toList, "дебет".toList, "chiqim".toList, "расход".toList]

def currencySyns : List (List Char) :=
  ["currency".toList, "валюта".toList, "valyuta".toList]

/-- One step of the header auto-detection loop (a later synonym hit for the
same field overwrites the earlier index, as the Python dict assignment does). -/
def colStep (cm : ColMap) (ih : Nat × List Char) : ColMap :=
  if dateSyns.contains ih.2 then { cm with date := some ih.1 }
  else if amountSyns.contains ih.2 then { cm with amount := some ih.1 }
  else if descSyns.contains ih.2 then { cm with description := some ih.1 }
  else if creditSyns.contains ih.2 then { cm with credit := some ih.1 }
  else if debitSyns.contains ih.2 then { cm with debit := some ih.1 }
  else if currencySyns.contains ih.2 then { cm with currency := some ih.1 }
  else cm

def buildColMap (header : List (List Char)) : ColMap :=
  header.enum.foldl colStep {}

/-- The cell cleaning `cell.replace(',', '').replace(' ', '').strip()`. -/
def cleanCell (cell : List Char) : List Char :=
  pyStrip ((cell.filter fun c => c ≠ ',').filter fun c => c ≠ ' ')

/-- One `strptime` numeric field of kind `%d`/`%m`: one digit 1-9, or two
digits with value in [1, maxv] (CPython's TimeRE patterns). Returns the value
and the remainder. -/
def parseMD (maxv : Nat) (l : List Char) : Option (Nat × List Char) :=
  let run := l.takeWhile Char.isDigit
  match run with
  | [a] => if 1 ≤ dVal a then some (dVal a, l.drop 1) else none
  | [a, b] =>
    if 1 ≤ dd a b ∧ dd a b ≤ maxv then some (dd a b, l.drop 2) else none
  | _ => none

/-- `%Y`: exactly four digits in CPython's TimeRE. -/
def parseY4 (l : List Char) : Option (Nat × List Char) :=
  match l.takeWhile Char.isDigit with
  | [a, b, c, d] => some (digitsToNat [a, b, c, d], l.drop 4)
  | _ => none

def expectC (c : Char) (l : List Char) : Option (List Char) :=
  match l with
  | x :: r => if x = c then some r else none
  | [] => none

/-- `strptime(s, '%d<sep>%m<sep>%Y')` on the whole cell. -/
def stpDMY (sep : Char) (l : List Char) : Option PDate :=
  match parseMD 31 l with
  | some (d, r1) =>
    match expectC sep r1 with
    | some r2 =>
      match parseMD 12 r2 with
      | some (m, r3) =>
        match expectC sep r3 with
        | some r4 =>
          match parseY4 r4 with
          | some (y, []) => if validDate y m d then some ⟨y, m, d⟩ else none
          | _ => none
        | none => none
      | none => none
    | none => none
  | none => none

/-- `strptime(s, '%m/%d/%Y')` on the whole cell. -/
def stpMDY (l : List Char) : Option PDate :=
  match parseMD 12 l with
  | some (m, r1) =>
    match expectC '/' r1 with
    | some r2 =>
      match parseMD 31 r2 with
      | some (d, r3) =>
        match expectC '/' r3 with
        | some r4 =>
          match parseY4 r4 with
          | some (y, []) => if validDate y m d then some ⟨y, m, d⟩ else none
          | _ => none
        | none => none
      | none => none
    | none => none
  | none => none

/-- `strptime(s, '%Y-%m-%d')` on the whole cell. -/
def stpYMD (l : List Char) : Option PDate :=
  match parseY4 l with
  | some (y, r1) =>
    match expectC '-' r1 with
    | some r2 =>
      match parseMD 12 r2 with
      | some (m, r3) =>
        match expectC '-' r3 with
        | some r4 =>
          match parseMD 31 r4 with
          | some (d, []) => if validDate y m d then some ⟨y, m, d⟩ else none
          | _ => none
        | none => none
      | none => none
    | none => none
  | none => none

/-- The CSV date formats, tried in source order, first success wins. -/
def csvDate (cell : List Char) : Option PDate :=
  (stpYMD cell).orElse fun _ =>
  (stpDMY '.' cell).orElse fun _ =>
  (stpDMY '/' cell).orElse fun _ =>
  (stpMDY cell).orElse fun _ =>
  stpDMY '-' cell

structure CsvTxn where
  amount : Option ℚ
  date : Option PDate
  description : List Char
  merchant : Option (List Char)
  type : String
  category : String
  currency : String
deriving DecidableEq, Repr

/-- The amount stage of one CSV row. `none` means the row is skipped
(`continue`); `some none` means no amount field was set (the entry survives
to the final truthiness filter with `amount = None`). -/
def csvAmtStage (cm : ColMap) (row : List (List Char)) :
    Option (Option (String × ℚ)) :=
  let creditDebit : Option (Option (String × ℚ)) :=
    match cm.credit, cm.debit with
    | some ci, some di =>
      let cstr := if ci < row.length then cleanCell (row.getD ci []) else []
      let dstr := if di < row.length then cleanCell (row.getD di []) else []
      let cq := if cstr.isEmpty then some 0 else pyFloat cstr
      let dq := if dstr.isEmpty then some 0 else pyFloat dstr
      match cq, dq with
      | some c, some d =>
        if 0 < c then some (some ("income", c))
        else if 0 < d then some (some ("expense", d))
        else none
      | _, _ => none
    | _, _ => some none
  match cm.amount with
  | some i =>
    if i < row.length then
      match pyFloat (cleanCell (row.getD i [])) with
      | some amt => some (some ((if 0 < amt then "income" else "expense"), |amt|))
      | none => none
    else creditDebit
  | none => creditDebit

/-- One data row of `parse_csv`: `none` when the row is skipped or its final
amount is falsy. -/
def csvRowEntry (cm : ColMap) (row : List (List Char)) : Option CsvTxn :=
  if row.isEmpty ∨ row.all (fun cell => (pyStrip cell).isEmpty) then none
  else
    match csvAmtStage cm row with
    | none => none
    | some stage =>
      let date :=
        match cm.date with
        | some i => if i < row.length then csvDate (pyStrip (row.getD i [])) else none
        | none => none
      let descr :=
        match cm.description with
        | some i => if i < row.length then some (pyStrip (row.getD i [])) else none
        | none => none
      let currency :=
        match cm.currency with
        | some i =>
          if i < row.length then
            let cur := upperL (pyStrip (row.getD i []))
            if cur = "USD".toList ∨ cur = "UZS".toList then String.mk cur else "UZS"
          else "UZS"
        | none => "UZS"
      let entry : CsvTxn :=
        { amount := stage.map Prod.snd
          date
          description := descr.getD []
          merchant := descr
          type := (stage.map Prod.fst).getD "expense"
          category :=
            match descr with
            | some ds => guess_category (some (String.mk ds))
            | none => "Other"
          currency }
      match entry.amount with
      | some q => if q ≠ 0 then some entry else none
      | none => none

/-- `parse_csv` of parsers.py on already-decoded text. -/
def parseCsvL (chars : List Char) : List CsvTxn :=
  let rows := csvRows chars
  if rows.length < 2 then []
  else
    let cm := buildColMap ((rows.headD []).map fun h => lowerL (pyStrip h))
    rows.tail.filterMap (csvRowEntry cm)

def parse_csv (file_content : String) : List CsvTxn :=
  parseCsvL file_content.toList

/-- `parse_csv` on raw bytes: UTF-8, then cp1251, else the decode error
propagates. -/
def parse_csv_bytes (bs : List Nat) : Except Unit (List CsvTxn) :=
  match utf8Decode bs with
  | some t => .ok (parseCsvL t)
  | none =>
    match cp1251Decode bs with
    | some t => .ok (parseCsvL t)
    | none => .error ()

/-! ## Debt settlement simplifier (app.py lines 431–448)

Balances are a mapping from member id to signed amount; Python dict order is
a list of pairs with distinct keys. Float arithmetic is modelled by exact
rationals; `round(x, 2)` is round-half-to-even at two decimals. The while
loop advances at least one index per iteration (the side achieving the `min`
drops to exactly zero, which is below the 0.01 epsilon), so a fuel of
`len(debtors) + len(creditors)` is sufficient; `settleLoopF` makes that fuel
explicit and `settleLoop` runs with exactly that budget. -/

abbrev Bal := Nat × ℚ

def eps : ℚ := 1 / 100

/-- Python `round(x, 2)`: to the nearest multiple of 1/100, halves to even. -/
def round2 (q : ℚ) : ℚ :=
  let x := q * 100
  let f := ⌊x⌋
  let r := x - f
  (((if r < 1 / 2 then f
     else if 1 / 2 < r then f + 1
     else if f % 2 = 0 then f else f + 1) : ℤ) : ℚ) / 100

/-- Stable insertion (descending by amount): a new element goes after every
element with an amount at least as large, which together with insertion in
original order reproduces Python's stable `sort(key=lambda x: -x[1])`. -/
def insDesc (x : Bal) : List Bal → List Bal
  | [] => [x]
  | y :: ys => if y.2 < x.2 then x :: y :: ys else y :: insDesc x ys

def sortDesc (l : List Bal) : List Bal :=
  l.foldl (fun acc x => insDesc x acc) []

structure Transfer where
  src : Nat
  dst : Nat
  amt : ℚ
deriving DecidableEq, Repr

/-- The settlement while-loop with explicit fuel. The emitted amount is
rounded to two decimals, the deducted amount is not — exactly as in the
source. -/
def settleLoopF : Nat → List Bal → List Bal → List Transfer
  | 0, _, _ => []
  | _ + 1, [], _ => []
  | _ + 1, _ :: _, [] => []
  | fuel + 1, d :: ds, c :: cs =>
    (if eps < min d.2 c.2 then [Transfer.mk d.1 c.1 (round2 (min d.2 c.2))]
     else []) ++
    settleLoopF fuel
      (if d.2 - min d.2 c.2 < eps then ds else (d.1, d.2 - min d.2 c.2) :: ds)
      (if c.2 - min d.2 c.2 < eps then cs else (c.1, c.2 - min d.2 c.2) :: cs)

def settleLoop (ds cs : List Bal) : List Transfer :=
  settleLoopF (ds.length + cs.length) ds cs

def creditorsOf (balances : List Bal) : List Bal :=
  sortDesc (balances.filter fun p => eps < p.2)

def debtorsOf (balances : List Bal) : List Bal :=
  sortDesc ((balances.filter fun p => p.2 < -eps).map fun p => (p.1, -p.2))

/-- `simplify_debts` before the member-name lookup: the emitted transfers at
the level of member ids. -/
def simplifyIds (balances : List Bal) : List Transfer :=
  settleLoop (debtorsOf balances) (creditorsOf balances)

/-- The emitted settlement dict; `src`/`dst` model the `from`/`to` keys
(member names after `member_map.get(..., '?')`). -/
structure NamedTransfer where
  src : String
  dst : String
  amount : ℚ
deriving DecidableEq, Repr

def memberGet (mm : List (Nat × String)) (k : Nat) : String :=
  ((mm.find? fun p => p.1 = k).map Prod.snd).getD "?"

/-- `simplify_debts` of app.py. -/
def simplify_debts (balances : List Bal) (member_map : List (Nat × String)) :
    List NamedTransfer :=
  (simplifyIds balances).map fun t =>
    NamedTransfer.mk (memberGet member_map t.src) (memberGet member_map t.dst) t.amt

def sentBy (p : Nat) (ts : List Transfer) : ℚ :=
  ((ts.filter fun t => t.src = p).map Transfer.amt).sum

def recvBy (p : Nat) (ts : List Transfer) : ℚ :=
  ((ts.filter fun t => t.dst = p).map Transfer.amt).sum

/-- Applying a transfer list back to the balances: a sender's balance rises
by what they pay, a receiver's falls by what they are paid. -/
def applyTransfers (balances : List Bal) (ts : List Transfer) : List Bal :=
  balances.map fun p => (p.1, p.2 + sentBy p.1 ts - recvBy p.1 ts)

/-- The residual of one participant after a transfer list is applied to
their balance entry. -/
def residual (ts : List Transfer) (p : Bal) : ℚ :=
  p.2 + sentBy p.1 ts - recvBy p.1 ts

/-- C6 claim-side chunking, following the claim's words: split on blank-line
boundaries; if that yields exactly one chunk, re-split immediately before
each occurrence of a card marker of either issuer, discarding empty
fragments (an all-whitespace blob yields no chunks at all). -/
def bulkChunksSpec (chars : List Char) : List (List Char) :=
  if (pyStrip chars).isEmpty then []
  else if (blankSplit (pyStrip chars).length (pyStrip chars)).length = 1 then
    ((markerSplit (pyStrip chars).length (pyStrip chars)).map pyStrip).filter
      fun c => ¬ c.isEmpty
  else blankSplit (pyStrip chars).length (pyStrip chars)

/-- C6 claim-side dispatch: the Humo variant if the chunk contains the Humo
marker word, the UzCard variant if it contains the UzCard marker word, and
the UzCard variant by default (the last two coincide). -/
def chunkRecord (c : List Char) : Except Unit SmsTxn :=
  if occursIn "humo".toList (lowerL c) then Except.ok (parseSmsHumoL c)
  else parseSmsUzcardL c

/-- All records the dispatched extractors produce for a chunk list, in input
order, before the amount-truthiness filter. -/
def recordsOfChunks : List (List Char) → Except Unit (List SmsTxn)
  | [] => .ok []
  | ch :: rest =>
    if (pyStrip ch).isEmpty then recordsOfChunks rest
    else
      match chunkRecord (pyStrip ch) with
      | .error e => .error e
      | .ok r => (recordsOfChunks rest).map (r :: ·)

/-- Shape condition on a keyword: nonempty with non-whitespace ends (all
entries of the store-category table satisfy it, which makes substring lookup
insensitive to the `strip()` in `guess_category`). -/
def kwOk (kc : String × String) : Bool :=
  match kc.1.toList with
  | [] => false
  | a :: r => !isPySpace a && !isPySpace ((a :: r).getLastD ' ')

/-! ## Lemmas about the settlement loop -/

theorem settleLoopF_nil_left (f : Nat) (cs : List Bal) :
    settleLoopF f [] cs = [] := by
  cases f <;> rfl

theorem settleLoopF_nil_right (f : Nat) (ds : List Bal) :
    settleLoopF f ds [] = [] := by
  cases f <;> cases ds <;> rfl

theorem step_len (d c : Bal) (ds cs : List Bal) :
    (if d.2 - min d.2 c.2 < eps then ds else (d.1, d.2 - min d.2 c.2) :: ds).length +
    (if c.2 - min d.2 c.2 < eps then cs else (c.1, c.2 - min d.2 c.2) :: cs).length
      ≤ ds.length + cs.length + 1 := by
  have heps : (0 : ℚ) < eps := by norm_num [eps]
  have key : d.2 - min d.2 c.2 < eps ∨ c.2 - min d.2 c.2 < eps := by
    rcases min_choice d.2 c.2 with h1 | h1
    · left; rw [h1]; simpa using heps
    · right; rw [h1]; simpa using heps
  rcases key with h | h
  · rw [if_pos h]
    split <;> first
      | omega
      | (simp only [List.length_cons]; omega)
  · rw [if_pos h]
    split <;> first
      | omega
      | (simp only [List.length_cons]; omega)

/-- Fuel does not matter once it covers the combined list length: each loop
iteration drops at least one side's head. -/
theorem settleLoopF_congr : ∀ f g (ds cs : List Bal),
    ds.length + cs.length ≤ f → ds.length + cs.length ≤ g →
    settleLoopF f ds cs = settleLoopF g ds cs := by
  intro f
  induction f with
  | zero =>
    intro g ds cs h _
    cases ds with
    | nil => rw [settleLoopF_nil_left, settleLoopF_nil_left]
    | cons d ds => simp at h
  | succ f ih =>
    intro g ds cs h hg
    cases ds with
    | nil => rw [settleLoopF_nil_left, settleLoopF_nil_left]
    | cons d ds =>
      cases cs with
      | nil => rw [settleLoopF_nil_right, settleLoopF_nil_right]
      | cons c cs =>
        cases g with
        | zero => simp at hg
        | succ g =>
          simp only [settleLoopF]
          congr 1
          have hl := step_len d c ds cs
          simp only [List.length_cons] at h hg
          exact ih g _ _ (by omega) (by omega)

/-- Every emitted transfer's ids come from the respective sides' id lists. -/
theorem settleLoopF_mem : ∀ f (ds cs : List Bal) t, t ∈ settleLoopF f ds cs →
    t.src ∈ ds.map Prod.fst ∧ t.dst ∈ cs.map Prod.fst := by
  intro f
  induction f with
  | zero => intro ds cs t ht; simp [settleLoopF] at ht
  | succ f ih =>
    intro ds cs t ht
    cases ds with
    | nil => rw [settleLoopF_nil_left] at ht; simp at ht
    | cons d ds =>
      cases cs with
      | nil => rw [settleLoopF_nil_right] at ht; simp at ht
      | cons c cs =>
        simp only [settleLoopF, List.mem_append] at ht
        rcases ht with ht | ht
        · have : t = Transfer.mk d.1 c.1 (round2 (min d.2 c.2)) := by
            by_cases hc : eps < min d.2 c.2
            · rw [if_pos hc] at ht; simpa using ht
            · rw [if_neg hc] at ht; simp at ht
          subst this
          constructor <;> simp
        · have := ih _ _ t ht
          constructor
          · rcases this with ⟨hs, _⟩
            by_cases hd : d.2 - min d.2 c.2 < eps
            · rw [if_pos hd] at hs
              exact List.mem_cons_of_mem _ hs
            · rw [if_neg hd] at hs
              simpa using hs
          · rcases this with ⟨_, hd2⟩
            by_cases hc : c.2 - min d.2 c.2 < eps
            · rw [if_pos hc] at hd2
              exact List.mem_cons_of_mem _ hd2
            · rw [if_neg hc] at hd2
              simpa using hd2

theorem insDesc_perm (x : Bal) (l : List Bal) : (insDesc x l).Perm (x :: l) := by
  induction l with
  | nil => exact List.Perm.refl _
  | cons y ys ih =>
    simp only [insDesc]
    split
    · exact List.Perm.refl _
    · exact (ih.cons y).trans (List.Perm.swap x y ys)

theorem foldl_insDesc_perm : ∀ (l acc : List Bal),
    (l.foldl (fun a x => insDesc x a) acc).Perm (l ++ acc) := by
  intro l
  induction l with
  | nil => intro acc; simp [List.Perm.refl]
  | cons x xs ih =>
    intro acc
    have h1 : (x :: xs).foldl (fun a y => insDesc y a) acc
        = xs.foldl (fun a y => insDesc y a) (insDesc x acc) := rfl
    rw [h1]
    exact ((ih _).trans (List.Perm.append_left xs (insDesc_perm x acc))).trans
      List.perm_middle

theorem sortDesc_perm (l : List Bal) : (sortDesc l).Perm l := by
  simpa using foldl_insDesc_perm l []

/-- Distinct keys give each key a unique amount in the mapping. -/
theorem key_unique : ∀ (b : List Bal), (b.map Prod.fst).Nodup →
    ∀ p q, p ∈ b → q ∈ b → p.1 = q.1 → p = q := by
  intro b
  induction b with
  | nil => intro _ p q hp; simp at hp
  | cons x xs ih =>
    intro hnd p q hp hq hpq
    simp only [List.map_cons, List.nodup_cons] at hnd
    rcases List.mem_cons.mp hp with hp1 | hp1 <;>
      rcases List.mem_cons.mp hq with hq1 | hq1
    · rw [hp1, hq1]
    · exfalso
      apply hnd.1
      rw [hp1] at hpq
      rw [hpq]
      exact List.mem_map_of_mem Prod.fst hq1
    · exfalso
      apply hnd.1
      rw [hq1] at hpq
      rw [← hpq]
      exact List.mem_map_of_mem Prod.fst hp1
    · exact ih hnd.2 p q hp1 hq1 hpq

/-- Both ids of every emitted transfer are keys of the balances mapping. -/
theorem simplifyIds_ids_mem (balances : List Bal) :
    ∀ t ∈ simplifyIds balances,
      t.src ∈ balances.map Prod.fst ∧ t.dst ∈ balances.map Prod.fst := by
  intro t ht
  have ht' : t ∈ settleLoopF
      ((debtorsOf balances).length + (creditorsOf balances).length)
      (debtorsOf balances) (creditorsOf balances) := ht
  have hm := settleLoopF_mem _ _ _ t ht'
  constructor
  · have hs' := ((sortDesc_perm _).map Prod.fst).mem_iff.mp hm.1
    simp only [List.map_map, List.mem_map, Function.comp] at hs'
    rcases hs' with ⟨pd, hpdmem, hpdfst⟩
    rw [← hpdfst]
    exact List.mem_map_of_mem Prod.fst (List.mem_of_mem_filter hpdmem)
  · have hd' := ((sortDesc_perm _).map Prod.fst).mem_iff.mp hm.2
    simp only [List.mem_map] at hd'
    rcases hd' with ⟨pc, hpcmem, hpcfst⟩
    rw [← hpcfst]
    exact List.mem_map_of_mem Prod.fst (List.mem_of_mem_filter hpcmem)

/-- Pointwise sum split for list sums. -/
theorem sum_map_add {α : Type} (f g : α → ℚ) (l : List α) :
    (l.map fun x => f x + g x).sum = (l.map f).sum + (l.map g).sum := by
  induction l with
  | nil => simp
  | cons x xs ih => simp [ih]; ring

theorem sum_map_sub {α : Type} (f g : α → ℚ) (l : List α) :
    (l.map fun x => f x - g x).sum = (l.map f).sum - (l.map g).sum := by
  induction l with
  | nil => simp
  | cons x xs ih => simp [ih]; ring

theorem sum_ite_zero : ∀ (keys : List Nat) (k : Nat) (v : ℚ), k ∉ keys →
    (keys.map fun p => if k = p then v else 0).sum = 0 := by
  intro keys
  induction keys with
  | nil => intro k v _; rfl
  | cons a as ih =>
    intro k v h
    simp only [List.map_cons, List.sum_cons]
    rw [if_neg (by intro he; exact h (by rw [he]; exact List.mem_cons_self a as))]
    rw [zero_add]
    exact ih k v fun hm => h (List.mem_cons_of_mem a hm)

theorem sum_ite_key : ∀ (keys : List Nat) (k : Nat) (v : ℚ), keys.Nodup →
    k ∈ keys → (keys.map fun p => if k = p then v else 0).sum = v := by
  intro keys
  induction keys with
  | nil => intro k v _ h; simp at h
  | cons a as ih =>
    intro k v hnd hk
    simp only [List.nodup_cons] at hnd
    simp only [List.map_cons, List.sum_cons]
    rcases List.mem_cons.mp hk with hk1 | hk1
    · rw [if_pos hk1, sum_ite_zero as k v (by rw [hk1]; exact hnd.1), add_zero]
    · rw [if_neg (by intro he; exact hnd.1 (by rw [← he]; exact hk1)), zero_add]
      exact ih k v hnd.2 hk1

/-- Summed over a duplicate-free key list containing every selected id, the
per-key filtered amounts add up to the total amount of the transfer list. -/
theorem sum_selBy (sel : Transfer → Nat) : ∀ (ts : List Transfer) (keys : List Nat),
    keys.Nodup → (∀ t ∈ ts, sel t ∈ keys) →
    (keys.map fun p => ((ts.filter fun t => sel t = p).map Transfer.amt).sum).sum
      = (ts.map Transfer.amt).sum := by
  intro ts
  induction ts with
  | nil => intro keys _ _; simp
  | cons t ts ih =>
    intro keys hnd hmem
    have hstep : ∀ p : Nat,
        (((t :: ts).filter fun u => sel u = p).map Transfer.amt).sum
          = (if sel t = p then t.amt else 0)
            + ((ts.filter fun u => sel u = p).map Transfer.amt).sum := by
      intro p
      by_cases hc : sel t = p
      · rw [if_pos hc]
        rw [List.filter_cons_of_pos (by simpa using hc)]
        simp
      · rw [if_neg hc]
        rw [List.filter_cons_of_neg (by simpa using hc)]
        simp
    calc (keys.map fun p => (((t :: ts).filter fun u => sel u = p).map Transfer.amt).sum).sum
        = (keys.map fun p => (if sel t = p then t.amt else 0)
            + ((ts.filter fun u => sel u = p).map Transfer.amt).sum).sum := by
          congr 1
          exact List.map_congr_left fun p _ => hstep p
      _ = (keys.map fun p => if sel t = p then t.amt else 0).sum
            + (keys.map fun p => ((ts.filter fun u => sel u = p).map Transfer.amt).sum).sum :=
          sum_map_add _ _ keys
      _ = t.amt + (ts.map Transfer.amt).sum := by
          rw [sum_ite_key keys (sel t) t.amt hnd (hmem t (List.mem_cons_self t ts))]
          rw [ih keys hnd fun u hu => hmem u (List.mem_cons_of_mem t hu)]
      _ = ((t :: ts).map Transfer.amt).sum := by simp

/-- With distinct keys, no participant is both a debtor and a creditor, so an
emitted transfer never pays oneself. -/
theorem simplifyIds_no_self (balances : List Bal)
    (hnd : (balances.map Prod.fst).Nodup) :
    ∀ t ∈ simplifyIds balances, t.src ≠ t.dst := by
  intro t ht
  have ht' : t ∈ settleLoopF
      ((debtorsOf balances).length + (creditorsOf balances).length)
      (debtorsOf balances) (creditorsOf balances) := ht
  have hm := settleLoopF_mem _ _ _ t ht'
  rcases hm with ⟨hs, hd⟩
  have hs' : t.src ∈ (((balances.filter fun p => p.2 < -eps).map
      fun p => (p.1, -p.2)).map Prod.fst) :=
    ((sortDesc_perm _).map Prod.fst).mem_iff.mp hs
  have hd' : t.dst ∈ ((balances.filter fun p => eps < p.2).map Prod.fst) :=
    ((sortDesc_perm _).map Prod.fst).mem_iff.mp hd
  simp only [List.map_map, List.mem_map, Function.comp] at hs' hd'
  rcases hs' with ⟨pd, hpdmem, hpdfst⟩
  rcases hd' with ⟨pc, hpcmem, hpcfst⟩
  have hpd := List.of_mem_filter hpdmem
  have hpc := List.of_mem_filter hpcmem
  intro hcontra
  have hpdpc : pd = pc := key_unique balances hnd pd pc
    (List.mem_of_mem_filter hpdmem) (List.mem_of_mem_filter hpcmem)
    (by rw [hpdfst, hpcfst, hcontra])
  rw [hpdpc] at hpd
  simp only [decide_eq_true_eq] at hpd hpc
  have heps : (0 : ℚ) < eps := by norm_num [eps]
  linarith

/-! ## Lemmas about substring occurrence and stripping (for the classifier) -/

theorem bool_eq_of (a b : Bool) (h1 : a = true → b = true)
    (h2 : b = true → a = true) : a = b := by
  cases a <;> cases b <;> simp_all

theorem getLastD_irrel : ∀ (l : List Char) (x y : Char), l ≠ [] →
    l.getLastD x = l.getLastD y := by
  intro l
  induction l with
  | nil => intro x y h; exact absurd rfl h
  | cons a as ih =>
    intro x y _
    cases as with
    | nil => rfl
    | cons b bs => exact ih x y (by simp)

theorem getLastD_mem : ∀ (l : List Char) (d : Char), l ≠ [] → l.getLastD d ∈ l := by
  intro l
  induction l with
  | nil => intro d h; exact absurd rfl h
  | cons a as ih =>
    intro d _
    cases as with
    | nil => simp [List.getLastD]
    | cons b bs =>
      have := ih a (by simp)
      simp only [List.getLastD] at this ⊢
      exact List.mem_cons_of_mem a this

theorem matchFront_mem : ∀ (p v : List Char), matchFront p v = true →
    ∀ c ∈ p, c ∈ v := by
  intro p
  induction p with
  | nil => intro v _ c hc; simp at hc
  | cons a ps ih =>
    intro v h c hc
    cases v with
    | nil => simp [matchFront] at h
    | cons b vs =>
      simp only [matchFront, Bool.and_eq_true, decide_eq_true_eq] at h
      rcases List.mem_cons.mp hc with hc1 | hc1
      · rw [hc1, h.1]; exact List.mem_cons_self b vs
      · exact List.mem_cons_of_mem b (ih vs h.2 c hc1)

theorem matchFront_append_any : ∀ (p v t : List Char), matchFront p v = true →
    matchFront p (v ++ t) = true := by
  intro p
  induction p with
  | nil => intro v t _; rfl
  | cons a ps ih =>
    intro v t h
    cases v with
    | nil => simp [matchFront] at h
    | cons b vs =>
      simp only [matchFront, Bool.and_eq_true] at h ⊢
      exact ⟨h.1, ih vs t h.2⟩

theorem occursIn_append_left : ∀ (p s t : List Char), occursIn p s = true →
    occursIn p (s ++ t) = true := by
  intro p s
  induction s with
  | nil =>
    intro t h
    simp only [occursIn, List.isEmpty_iff] at h
    subst h
    cases t <;> rfl
  | cons c cs ih =>
    intro t h
    simp only [occursIn, Bool.or_eq_true] at h ⊢
    rcases h with h | h
    · exact Or.inl (matchFront_append_any p _ t h)
    · exact Or.inr (ih t h)

theorem occursIn_append_right : ∀ (s p t : List Char), occursIn p t = true →
    occursIn p (s ++ t) = true := by
  intro s
  induction s with
  | nil => intro p t h; exact h
  | cons c cs ih =>
    intro p t h
    simp only [List.cons_append, occursIn, Bool.or_eq_true]
    exact Or.inr (ih p t h)

theorem occursIn_mem : ∀ (w p : List Char), occursIn p w = true →
    ∀ c ∈ p, c ∈ w := by
  intro w
  induction w with
  | nil =>
    intro p h c hc
    simp only [occursIn, List.isEmpty_iff] at h
    subst h
    simp at hc
  | cons b ws ih =>
    intro p h c hc
    simp only [occursIn, Bool.or_eq_true] at h
    rcases h with h | h
    · exact matchFront_mem p _ h c hc
    · exact List.mem_cons_of_mem b (ih p h c hc)

theorem occursIn_ws_front : ∀ (w s : List Char) (a : Char) (p' : List Char),
    (∀ c ∈ w, isPySpace c = true) → isPySpace a = false →
    occursIn (a :: p') (w ++ s) = occursIn (a :: p') s := by
  intro w
  induction w with
  | nil => intro s a p' _ _; rfl
  | cons b bs ih =>
    intro s a p' hw ha
    have hb : isPySpace b = true := hw b (List.mem_cons_self b bs)
    have hab : (decide (a = b)) = false := by
      simp only [decide_eq_false_iff_not]
      intro he
      rw [he, hb] at ha
      exact absurd ha (by decide)
    simp only [List.cons_append, occursIn, matchFront, hab, Bool.false_and,
      Bool.false_or]
    exact ih s a p' (fun c hc => hw c (List.mem_cons_of_mem b hc)) ha

theorem matchFront_ws_back : ∀ (p u w : List Char),
    (∀ c ∈ w, isPySpace c = true) → isPySpace (p.getLastD ' ') = false →
    matchFront p (u ++ w) = true → matchFront p u = true := by
  intro p
  induction p with
  | nil => intro u w _ _ _; rfl
  | cons a ps ih =>
    intro u w hw hl h
    cases u with
    | nil =>
      exfalso
      have hmem : (a :: ps).getLastD ' ' ∈ w :=
        matchFront_mem _ _ h _ (getLastD_mem (a :: ps) ' ' (by simp))
      rw [hw _ hmem] at hl
      exact absurd hl (by decide)
    | cons b us =>
      simp only [List.cons_append, matchFront, Bool.and_eq_true] at h ⊢
      refine ⟨h.1, ?_⟩
      cases ps with
      | nil => rfl
      | cons q qs =>
        apply ih us w hw _ h.2
        have h1 : (a :: q :: qs).getLastD ' ' = (q :: qs).getLastD a := by
          simp [List.getLastD]
        have h2 : (q :: qs).getLastD a = (q :: qs).getLastD ' ' :=
          getLastD_irrel (q :: qs) a ' ' (by simp)
        rw [h1, h2] at hl
        exact hl

theorem occursIn_ws_back : ∀ (s w p : List Char),
    (∀ c ∈ w, isPySpace c = true) → isPySpace (p.getLastD ' ') = false →
    p ≠ [] → occursIn p (s ++ w) = true → occursIn p s = true := by
  intro s
  induction s with
  | nil =>
    intro w p hw hl hne h
    exfalso
    have hmem : p.getLastD ' ' ∈ w := occursIn_mem _ _ h _ (getLastD_mem p ' ' hne)
    rw [hw _ hmem] at hl
    exact absurd hl (by decide)
  | cons c cs ih =>
    intro w p hw hl hne h
    simp only [List.cons_append, occursIn, Bool.or_eq_true] at h ⊢
    rcases h with h | h
    · exact Or.inl (matchFront_ws_back p (c :: cs) w hw hl h)
    · exact Or.inr (ih w p hw hl hne h)

/-- Substring occurrence of a keyword with non-whitespace first and last
characters is invariant under Python `strip()`. -/
theorem occursIn_strip (p m : List Char) (hne : p ≠ [])
    (hh : isPySpace (p.headD ' ') = false)
    (hl : isPySpace (p.getLastD ' ') = false) :
    occursIn p (pyStrip m) = occursIn p m := by
  obtain ⟨a, p', rfl⟩ : ∃ a p', p = a :: p' := by
    cases p with
    | nil => exact absurd rfl hne
    | cons x xs => exact ⟨x, xs, rfl⟩
  have ha : isPySpace a = false := hh
  have hm1 : occursIn (a :: p') m
      = occursIn (a :: p') (m.dropWhile isPySpace) := by
    conv_lhs => rw [← List.takeWhile_append_dropWhile (p := isPySpace) (l := m)]
    exact occursIn_ws_front _ _ a p'
      (fun c hc => List.mem_takeWhile_imp hc) ha
  set m1 := m.dropWhile isPySpace with hm1def
  have hdecomp : m1 = pyStrip m ++ (m1.reverse.takeWhile isPySpace).reverse := by
    have : m1.reverse = m1.reverse.takeWhile isPySpace ++ m1.reverse.dropWhile isPySpace :=
      (List.takeWhile_append_dropWhile _ _).symm
    have h2 := congrArg List.reverse this
    rw [List.reverse_reverse, List.reverse_append] at h2
    exact h2
  have hw2 : ∀ c ∈ (m1.reverse.takeWhile isPySpace).reverse, isPySpace c = true := by
    intro c hc
    rw [List.mem_reverse] at hc
    exact List.mem_takeWhile_imp hc
  rw [hm1, hdecomp]
  apply bool_eq_of
  · intro h
    exact occursIn_append_left _ _ _ h
  · intro h
    exact occursIn_ws_back _ _ _ hw2 hl (by simp) h

theorem find?_congr : ∀ {α : Type} (l : List α) (p q : α → Bool),
    (∀ x ∈ l, p x = q x) → l.find? p = l.find? q := by
  intro α l
  induction l with
  | nil => intro p q _; rfl
  | cons x xs ih =>
    intro p q h
    simp only [List.find?]
    rw [h x (List.mem_cons_self x xs)]
    cases q x
    · exact ih p q fun y hy => h y (List.mem_cons_of_mem x hy)
    · rfl

/-- The classifier loop is the first-match lookup over the table. -/
theorem lookupCategory_eq_find : ∀ (l : List (String × String)) (n : List Char),
    lookupCategory l n
      = ((l.find? fun kc => occursIn kc.1.toList n).map Prod.snd).getD "Other" := by
  intro l
  induction l with
  | nil => intro n; rfl
  | cons kc rest ih =>
    intro n
    simp only [lookupCategory, List.find?]
    cases hx : occursIn kc.1.toList n with
    | false => simpa using ih n
    | true => simp

theorem lookupCategory_mem : ∀ (l : List (String × String)) (n : List Char),
    (∀ kc ∈ l, kc.2 ∈ CATEGORIES) → lookupCategory l n ∈ CATEGORIES := by
  intro l
  induction l with
  | nil => intro n _; simp [lookupCategory, CATEGORIES]
  | cons kc rest ih =>
    intro n h
    simp only [lookupCategory]
    split
    · exact h kc (List.mem_cons_self kc rest)
    · exact ih n fun x hx => h x (List.mem_cons_of_mem kc hx)

theorem kwOk_spec (kc : String × String) (h : kwOk kc = true) :
    kc.1.toList ≠ [] ∧ isPySpace (kc.1.toList.headD ' ') = false ∧
      isPySpace (kc.1.toList.getLastD ' ') = false := by
  unfold kwOk at h
  cases hx : kc.1.toList with
  | nil => rw [hx] at h; simp at h
  | cons a r =>
    rw [hx] at h
    simp only [Bool.and_eq_true, Bool.not_eq_true'] at h
    exact ⟨by simp, h.1, h.2⟩

/-! ## Lemmas: parsed amounts of the extractors are never negative -/

theorem exceptMap_ok {α β : Type} (e : Except Unit α) (f : α → β) (res : β)
    (h : e.map f = Except.ok res) : ∃ a, e = Except.ok a ∧ f a = res := by
  cases e with
  | error x => exact absurd h (by simp [Except.map])
  | ok a => exact ⟨a, rfl, Except.ok.inj h⟩

theorem exceptMap_error {α β : Type} (e : Except Unit α) (f : α → β) :
    e.map f = Except.error () ↔ e = Except.error () := by
  cases e with
  | error x => cases x; simp [Except.map]
  | ok a => simp [Except.map]

/-- The bulk result is exactly the in-order record list of the dispatched
chunks, filtered by amount truthiness. -/
theorem processChunks_filter : ∀ (chunks : List (List Char)) (res all : List SmsTxn),
    processChunks chunks = Except.ok res →
    recordsOfChunks chunks = Except.ok all →
    res = all.filter truthyAmt := by
  intro chunks
  induction chunks with
  | nil =>
    intro res all h1 h2
    have hr : ([] : List SmsTxn) = res := Except.ok.inj h1
    have ha : ([] : List SmsTxn) = all := Except.ok.inj h2
    rw [← hr, ← ha]
    rfl
  | cons ch rest ih =>
    intro res all h1 h2
    unfold processChunks at h1
    unfold recordsOfChunks at h2
    dsimp only at h1
    split at h1
    · next hemp =>
      rw [if_pos hemp] at h2
      exact ih res all h1 h2
    · next hemp =>
      rw [if_neg hemp] at h2
      split at h1
      · next hhumo =>
        rw [show chunkRecord (pyStrip ch)
            = Except.ok (parseSmsHumoL (pyStrip ch)) from if_pos hhumo] at h2
        rcases exceptMap_ok _ _ _ h2 with ⟨alls, halls, hall⟩
        rcases exceptMap_ok _ _ _ h1 with ⟨rs, hrs, hres⟩
        rw [← hall, ← hres, List.filter_cons, ih rs alls hrs halls]
      · next hhumo =>
        rw [show chunkRecord (pyStrip ch)
            = parseSmsUzcardL (pyStrip ch) from if_neg hhumo] at h2
        split at h1
        · split at h1
          · exact absurd h1 (by simp)
          · next r0 hok =>
            rw [hok] at h2
            rcases exceptMap_ok _ _ _ h2 with ⟨alls, halls, hall⟩
            rcases exceptMap_ok _ _ _ h1 with ⟨rs, hrs, hres⟩
            rw [← hall, ← hres, List.filter_cons, ih rs alls hrs halls]
        · split at h1
          · exact absurd h1 (by simp)
          · next r0 hok =>
            rw [hok] at h2
            rcases exceptMap_ok _ _ _ h2 with ⟨alls, halls, hall⟩
            rcases exceptMap_ok _ _ _ h1 with ⟨rs, hrs, hres⟩
            rw [← hall, ← hres, List.filter_cons, ih rs alls hrs halls]

/-- The bulk loop raises (an uncaught ValueError from the UzCard float call)
exactly when some dispatched chunk's record computation raises. -/
theorem processChunks_error : ∀ chunks : List (List Char),
    processChunks chunks = Except.error ()
      ↔ recordsOfChunks chunks = Except.error () := by
  intro chunks
  induction chunks with
  | nil => simp [processChunks, recordsOfChunks]
  | cons ch rest ih =>
    unfold processChunks recordsOfChunks
    dsimp only
    split
    · exact ih
    · split
      · next hhumo =>
        rw [show chunkRecord (pyStrip ch)
            = Except.ok (parseSmsHumoL (pyStrip ch)) from if_pos hhumo]
        rw [exceptMap_error, exceptMap_error]
        exact ih
      · next hhumo =>
        rw [show chunkRecord (pyStrip ch)
            = parseSmsUzcardL (pyStrip ch) from if_neg hhumo]
        split
        · cases hu : parseSmsUzcardL (pyStrip ch) with
          | error x =>
            cases x
            simp
          | ok r0 =>
            rw [exceptMap_error, exceptMap_error]
            exact ih
        · cases hu : parseSmsUzcardL (pyStrip ch) with
          | error x =>
            cases x
            simp
          | ok r0 =>
            rw [exceptMap_error, exceptMap_error]
            exact ih

/-! ## Claim theorems -/

/-- C8: `guess_category` returns the category mapped to the first keyword, in
the insertion order of the static store-category table, whose substring
occurs in the lowercased input; it returns "Other" when no keyword occurs or
the input is empty or absent; and the result is always a member of the fixed
closed category set. -/
theorem C8_theorem (name : Option String) :
    guess_category name ∈ CATEGORIES ∧
    guess_category name =
      (match name with
       | none => "Other"
       | some s =>
         ((STORE_CATEGORY_MAP.find? fun kc =>
             occursIn kc.1.toList (lowerL s.toList)).map Prod.snd).getD "Other") := by
  have hcat : ∀ kc ∈ STORE_CATEGORY_MAP, kc.2 ∈ CATEGORIES := by decide
  have hok : ∀ kc ∈ STORE_CATEGORY_MAP, kwOk kc = true := by decide
  constructor
  · cases name with
    | none => simp [guess_category, CATEGORIES]
    | some s =>
      simp only [guess_category]
      split
      · simp [CATEGORIES]
      · exact lookupCategory_mem _ _ hcat
  · cases name with
    | none => rfl
    | some s =>
      simp only [guess_category]
      split
      · next hs =>
        subst hs
        decide
      · rw [lookupCategory_eq_find]
        have hfind :
            (STORE_CATEGORY_MAP.find? fun kc =>
              occursIn kc.1.toList (pyStrip (lowerL s.toList)))
            = (STORE_CATEGORY_MAP.find? fun kc =>
              occursIn kc.1.toList (lowerL s.toList)) := by
          apply find?_congr
          intro kc hkc
          obtain ⟨hne, hh, hl⟩ := kwOk_spec kc (hok kc hkc)
          exact occursIn_strip kc.1.toList (lowerL s.toList) hne hh hl
        rw [hfind]

/-- C5: `parse_csv` decodes byte input as UTF-8 first and, on failure, as the
single legacy encoding cp1251 with no third fallback; the decode error
reaches the caller exactly when both attempts fail. Once decoded the function
is total (it never raises for a malformed row): a table with fewer than two
rows yields the empty list, and a data row whose amount cell cannot be parsed
contributes no entry to the result. -/
theorem C5_theorem :
    (∀ bs : List Nat,
      parse_csv_bytes bs = Except.error ()
        ↔ utf8Decode bs = none ∧ cp1251Decode bs = none) ∧
    (∀ chars : List Char, (csvRows chars).length < 2 → parseCsvL chars = []) ∧
    (∀ (cm : ColMap) (row : List (List Char)) (i : Nat), cm.amount = some i →
      i < row.length → pyFloat (cleanCell (row.getD i [])) = none →
      csvRowEntry cm row = none) := by
  refine ⟨?_, ?_, ?_⟩
  · intro bs
    constructor
    · intro h
      cases h1 : utf8Decode bs with
      | some t => simp [parse_csv_bytes, h1] at h
      | none =>
        cases h2 : cp1251Decode bs with
        | some t => simp [parse_csv_bytes, h1, h2] at h
        | none => exact ⟨rfl, rfl⟩
    · rintro ⟨h1, h2⟩
      simp [parse_csv_bytes, h1, h2]
  · intro chars h
    simp only [parseCsvL]
    rw [if_pos h]
  · intro cm row i hamt hlt hfl
    simp only [csvRowEntry]
    split
    · rfl
    · have hstage : csvAmtStage cm row = none := by
        simp only [csvAmtStage, hamt]
        rw [if_pos hlt, hfl]
      rw [hstage]

theorem C5_witness :
    ((csvRows "header only".toList).length < 2) ∧
      parseCsvL "header only".toList = [] :=
  ⟨by decide, C5_theorem.2.1 "header only".toList (by decide)⟩

/-- C4 counterexample: the claim "type is income iff a plus sign or a
deposit-related keyword precedes the matched amount" fails — the deposit
keyword check scans the whole text, so "1.00 UZS. Popolnenie" (keyword after
the amount) still yields income. -/
theorem C4_counterexample :
    (parse_sms_uzcard "1.00 UZS. Popolnenie" = Except.ok
      { amount := some 1, merchant := some "Popolnenie".toList, date := none,
        card := none, category := "Other", currency := "UZS", type := "income",
        description := "Popolnenie".toList,
        raw := "1.00 UZS. Popolnenie".toList }) ∧
    (uzAmtScan 0 "1.00 UZS. Popolnenie".toList = some (0, "1.00".toList)) ∧
    ¬ (("1.00 UZS. Popolnenie".toList.take 0).contains '+' = true ∨
       occursIn "popolnenie".toList
         (lowerL ("1.00 UZS. Popolnenie".toList.take 0)) = true ∨
       occursIn "zachislenie".toList
         (lowerL ("1.00 UZS. Popolnenie".toList.take 0)) = true) := by
  refine ⟨by decide, by decide, by decide⟩

/-- C4 amended: for every SMS in which the UzCard extractor matches an
amount, the type is income iff a '+' occurs strictly before the start of the
regex match (a sign attached to the amount is consumed by the match and does
not count) or a deposit keyword ("popolnenie" or "zachislenie") occurs
anywhere in the lowercased text; otherwise expense. -/
theorem C4_theorem (text : String) (r : SmsTxn) (start : Nat) (g : List Char)
    (hok : parse_sms_uzcard text = Except.ok r)
    (hamt : uzAmtScan 0 text.toList = some (start, g)) :
    r.type = "income" ↔
      ((text.toList.take start).contains '+' = true ∨
       occursIn "popolnenie".toList (lowerL text.toList) = true ∨
       occursIn "zachislenie".toList (lowerL text.toList) = true) := by
  unfold parse_sms_uzcard parseSmsUzcardL at hok
  dsimp only at hok
  rw [hamt] at hok
  dsimp only at hok
  cases hfl : pyFloat (smsCleanAmt g) with
  | none => rw [hfl] at hok; exact absurd hok (by simp)
  | some q0 =>
    rw [hfl] at hok
    dsimp only at hok
    have hr := Except.ok.inj hok
    subst hr
    show (if _ then "income" else "expense") = "income" ↔ _
    by_cases hc : (text.toList.take start).contains '+' = true ∨
        occursIn "popolnenie".toList (lowerL text.toList) = true ∨
        occursIn "zachislenie".toList (lowerL text.toList) = true
    · rw [if_pos hc]
      exact ⟨fun _ => hc, fun _ => rfl⟩
    · rw [if_neg hc]
      exact ⟨fun he => absurd he (by decide), fun hcc => absurd hcc hc⟩

theorem C4_witness :
    (parse_sms_uzcard "1.00 UZS" = Except.ok
      { amount := some 1, merchant := none, date := none, card := none,
        category := "Other", currency := "UZS", type := "expense",
        description := [], raw := "1.00 UZS".toList }) ∧
    (uzAmtScan 0 "1.00 UZS".toList = some (0, "1.00".toList)) ∧
    (({ amount := some 1, merchant := none, date := none, card := none,
        category := "Other", currency := "UZS", type := "expense",
        description := [], raw := "1.00 UZS".toList } : SmsTxn).type = "income" ↔
      (("1.00 UZS".toList.take 0).contains '+' = true ∨
       occursIn "popolnenie".toList (lowerL "1.00 UZS".toList) = true ∨
       occursIn "zachislenie".toList (lowerL "1.00 UZS".toList) = true)) :=
  ⟨by decide, by decide,
    C4_theorem "1.00 UZS" _ 0 "1.00".toList (by decide) (by decide)⟩

/-- C6: the bulk splitter first splits on blank lines, re-splits on issuer
card markers when blank-splitting yields a single chunk (discarding empty
fragments), dispatches each chunk on its marker word (Humo variant iff the
chunk mentions humo, UzCard otherwise), keeps exactly the records whose
amounts are truthy, in input order (the result is the in-order record list
filtered by amount truthiness), and two SMS bodies separated by a blank line
yield exactly two transactions in original order. -/
theorem C6_theorem :
    (∀ text : String,
      parse_sms_bulk text = processChunks (bulkChunksSpec text.toList)) ∧
    (∀ (chunks : List (List Char)) (res all : List SmsTxn),
      processChunks chunks = Except.ok res →
      recordsOfChunks chunks = Except.ok all →
      res = all.filter truthyAmt) ∧
    (∀ chunks : List (List Char),
      processChunks chunks = Except.error ()
        ↔ recordsOfChunks chunks = Except.error ()) ∧
    ((parse_sms_bulk
        "Karta *1111: 1.00 UZS. Evos\n\nKarta *2222: 2.00 UZS. Makro").toOption.map
      (List.map SmsTxn.amount) = some [some 1, some 2]) := by
  refine ⟨?_, processChunks_filter, processChunks_error, by decide⟩
  intro text
  unfold parse_sms_bulk parseSmsBulkL bulkChunksSpec
  dsimp only
  by_cases h1 : (pyStrip text.toList).isEmpty = true
  · rw [if_pos h1, if_pos h1]
    rfl
  · rw [if_neg h1, if_neg h1]

theorem C6_witness :
    (processChunks ["Karta *1111: 1.00 UZS. Evos".toList] = Except.ok
      [{ amount := some 1, merchant := some "Evos".toList, date := none,
         card := some "*1111".toList, category := "Food", currency := "UZS",
         type := "expense", description := "Evos".toList,
         raw := "Karta *1111: 1.00 UZS. Evos".toList }]) ∧
    (recordsOfChunks ["Karta *1111: 1.00 UZS. Evos".toList] = Except.ok
      [{ amount := some 1, merchant := some "Evos".toList, date := none,
         card := some "*1111".toList, category := "Food", currency := "UZS",
         type := "expense", description := "Evos".toList,
         raw := "Karta *1111: 1.00 UZS. Evos".toList }]) ∧
    ([{ amount := some 1, merchant := some "Evos".toList, date := none,
        card := some "*1111".toList, category := "Food", currency := "UZS",
        type := "expense", description := "Evos".toList,
        raw := "Karta *1111: 1.00 UZS. Evos".toList }] : List SmsTxn) =
      List.filter truthyAmt
        [{ amount := some 1, merchant := some "Evos".toList, date := none,
           card := some "*1111".toList, category := "Food", currency := "UZS",
           type := "expense", description := "Evos".toList,
           raw := "Karta *1111: 1.00 UZS. Evos".toList }] :=
  ⟨by decide, by decide,
    C6_theorem.2.1 ["Karta *1111: 1.00 UZS. Evos".toList] _ _ (by decide) (by decide)⟩

/-- C9: `simplify_debts` terminates on every finite balances mapping — in
each iteration of the matching loop at least one of the two current
remainders is deducted to exactly zero (below the 0.01 epsilon) and the
corresponding index advances, so a fuel of (number of debtors + number of
creditors) suffices: running the loop with any fuel at least that bound gives
the same (total) result as `settleLoop`, which runs with exactly that bound. -/
theorem C9_theorem (f : Nat) (ds cs : List Bal)
    (h : ds.length + cs.length ≤ f) : settleLoopF f ds cs = settleLoop ds cs :=
  settleLoopF_congr f (ds.length + cs.length) ds cs h le_rfl

theorem C9_witness :
    ([((0 : Nat), (2 : ℚ))].length + [((1 : Nat), (2 : ℚ))].length ≤ 5) ∧
      settleLoopF 5 [((0 : Nat), (2 : ℚ))] [((1 : Nat), (2 : ℚ))]
        = settleLoop [((0 : Nat), (2 : ℚ))] [((1 : Nat), (2 : ℚ))] :=
  ⟨by decide, C9_theorem 5 _ _ (by decide)⟩

/-- C10: `simplify_debts` never emits a self-transfer — for every balances
mapping (distinct member ids), the creditor set (balance above 0.01) and the
debtor set (balance below -0.01) are disjoint, so the paying and receiving
member ids of every emitted transfer are distinct. -/
theorem C10_theorem (balances : List Bal)
    (hnd : (balances.map Prod.fst).Nodup) :
    ∀ t ∈ simplifyIds balances, t.src ≠ t.dst :=
  simplifyIds_no_self balances hnd

theorem C10_witness :
    (([((0 : Nat), (100 : ℚ)), (1, -100)].map Prod.fst).Nodup) ∧
      Transfer.mk 1 0 (100 : ℚ) ∈ simplifyIds [((0 : Nat), (100 : ℚ)), (1, -100)] ∧
      (Transfer.mk 1 0 (100 : ℚ)).src ≠ (Transfer.mk 1 0 (100 : ℚ)).dst :=
  ⟨by decide, by decide,
    C10_theorem [((0 : Nat), (100 : ℚ)), (1, -100)] (by decide) _ (by decide)⟩

/-- C2 counterexample: the claim "for each participant, balance + sent −
received has absolute value at most 0.01" fails even on a zero-sum mapping
with all balances beyond the epsilon: with one debtor of 3.012 against three
creditors of 1.004, each emitted amount rounds from 1.004 down to 1.00 while
the full 1.004 is deducted, leaving the debtor with a residual of −0.012. -/
theorem C2_counterexample :
    (([((0 : Nat), (-3012 / 1000 : ℚ)), (1, 1004 / 1000), (2, 1004 / 1000),
        (3, 1004 / 1000)].map Prod.fst).Nodup) ∧
    (([((0 : Nat), (-3012 / 1000 : ℚ)), (1, 1004 / 1000), (2, 1004 / 1000),
        (3, 1004 / 1000)].map Prod.snd).sum = 0) ∧
    ((0 : Nat), (-3012 / 1000 : ℚ)) ∈
      [((0 : Nat), (-3012 / 1000 : ℚ)), (1, 1004 / 1000), (2, 1004 / 1000),
        (3, 1004 / 1000)] ∧
    ¬ |residual (simplifyIds [((0 : Nat), (-3012 / 1000 : ℚ)), (1, 1004 / 1000),
        (2, 1004 / 1000), (3, 1004 / 1000)]) ((0 : Nat), (-3012 / 1000 : ℚ))| ≤ eps := by
  refine ⟨by decide, by decide, by decide, by decide⟩

/-- C2 amended: the transfers returned by `simplify_debts` only redistribute —
summed over all participants of the mapping, balance + sent − received equals
the sum of the input balances (total sent equals total received). The
per-participant 0.01 bound of the original claim does not hold in general,
because emitted amounts are rounded to two decimals while deductions are
exact (see the counterexample). -/
theorem C2_theorem (balances : List Bal)
    (hnd : (balances.map Prod.fst).Nodup) :
    (balances.map fun p => residual (simplifyIds balances) p).sum
      = (balances.map Prod.snd).sum := by
  have hsrc : ∀ t ∈ simplifyIds balances, t.src ∈ balances.map Prod.fst :=
    fun t ht => (simplifyIds_ids_mem balances t ht).1
  have hdst : ∀ t ∈ simplifyIds balances, t.dst ∈ balances.map Prod.fst :=
    fun t ht => (simplifyIds_ids_mem balances t ht).2
  have hsent : (balances.map fun p => sentBy p.1 (simplifyIds balances)).sum
      = ((simplifyIds balances).map Transfer.amt).sum := by
    have hmm : (balances.map fun p => sentBy p.1 (simplifyIds balances))
        = ((balances.map Prod.fst).map fun k => sentBy k (simplifyIds balances)) := by
      rw [List.map_map]; rfl
    rw [hmm]
    exact sum_selBy Transfer.src (simplifyIds balances) (balances.map Prod.fst) hnd hsrc
  have hrecv : (balances.map fun p => recvBy p.1 (simplifyIds balances)).sum
      = ((simplifyIds balances).map Transfer.amt).sum := by
    have hmm : (balances.map fun p => recvBy p.1 (simplifyIds balances))
        = ((balances.map Prod.fst).map fun k => recvBy k (simplifyIds balances)) := by
      rw [List.map_map]; rfl
    rw [hmm]
    exact sum_selBy Transfer.dst (simplifyIds balances) (balances.map Prod.fst) hnd hdst
  have hres : (balances.map fun p => residual (simplifyIds balances) p)
      = balances.map fun p =>
          (p.2 + sentBy p.1 (simplifyIds balances)) - recvBy p.1 (simplifyIds balances) :=
    rfl
  rw [hres, sum_map_sub, sum_map_add, hsent, hrecv]
  ring

theorem C2_witness :
    (([((0 : Nat), (100 : ℚ)), (1, -60), (2, -40)].map Prod.fst).Nodup) ∧
      ([((0 : Nat), (100 : ℚ)), (1, -60), (2, -40)].map fun p =>
          residual (simplifyIds [((0 : Nat), (100 : ℚ)), (1, -60), (2, -40)]) p).sum
        = ([((0 : Nat), (100 : ℚ)), (1, -60), (2, -40)].map Prod.snd).sum :=
  ⟨by decide, C2_theorem [((0 : Nat), (100 : ℚ)), (1, -60), (2, -40)] (by decide)⟩

/-- C7 counterexample: settlement is not idempotent — applying the returned
(rounded) transfers can leave a debtor beyond −0.01 together with a creditor
beyond +0.01, and a second run then emits a further transfer. With debtor
3.512 against creditors 1.004, 1.004, 1.004 and 1.0, the debtor's three
round-downs leave −0.012 while the last creditor keeps +0.5. -/
theorem C7_counterexample :
    (([((0 : Nat), (-3512 / 1000 : ℚ)), (1, 1004 / 1000), (2, 1004 / 1000),
        (3, 1004 / 1000), (4, 1)].map Prod.fst).Nodup) ∧
    simplifyIds (applyTransfers
        [((0 : Nat), (-3512 / 1000 : ℚ)), (1, 1004 / 1000), (2, 1004 / 1000),
          (3, 1004 / 1000), (4, 1)]
        (simplifyIds [((0 : Nat), (-3512 / 1000 : ℚ)), (1, 1004 / 1000),
          (2, 1004 / 1000), (3, 1004 / 1000), (4, 1)])) ≠ [] := by
  refine ⟨by decide, by decide⟩

/-- C7 amended: if applying the returned transfers leaves every participant's
balance with absolute value at most the 0.01 epsilon, then re-running
`simplify_debts` on the resulting balances returns the empty transfer list.
(Without that condition idempotence can fail, because emitted amounts are
rounded to two decimals while the loop's deductions are exact.) -/
theorem C7_theorem (balances : List Bal)
    (h : ∀ p ∈ applyTransfers balances (simplifyIds balances), |p.2| ≤ eps) :
    simplifyIds (applyTransfers balances (simplifyIds balances)) = [] := by
  have hdeb : debtorsOf (applyTransfers balances (simplifyIds balances)) = [] := by
    have hfil : (applyTransfers balances (simplifyIds balances)).filter
        (fun p => decide (p.2 < -eps)) = [] := by
      rw [List.filter_eq_nil_iff]
      intro p hp
      have habs := abs_le.mp (h p hp)
      simp only [decide_eq_true_eq]
      intro hlt
      linarith [habs.1]
    show sortDesc _ = []
    rw [hfil]
    rfl
  show settleLoopF _ (debtorsOf _) (creditorsOf _) = []
  rw [hdeb]
  exact settleLoopF_nil_left _ _

theorem C7_witness :
    (∀ p ∈ applyTransfers [((0 : Nat), (2 : ℚ)), (1, -2)]
        (simplifyIds [((0 : Nat), (2 : ℚ)), (1, -2)]), |p.2| ≤ eps) ∧
      simplifyIds (applyTransfers [((0 : Nat), (2 : ℚ)), (1, -2)]
        (simplifyIds [((0 : Nat), (2 : ℚ)), (1, -2)])) = [] :=
  ⟨by decide, C7_theorem [((0 : Nat), (2 : ℚ)), (1, -2)] (by decide)⟩

/-! ## C3: amount normalization locale rule -/

theorem digit_bounds (c : Char) (h : c.isDigit = true) :
    48 ≤ c.toNat ∧ c.toNat ≤ 57 := by
  simp only [Char.isDigit, Bool.and_eq_true, decide_eq_true_eq] at h
  exact ⟨h.1, h.2⟩

theorem digit_not_ws (c : Char) (h : c.isDigit = true) : isPySpace c = false := by
  obtain ⟨h1, h2⟩ := digit_bounds c h
  unfold isPySpace
  dsimp only
  simp only [Bool.or_eq_false_iff, Bool.and_eq_false_iff, decide_eq_false_iff_not]
  omega

theorem digit_ne {c d : Char} (h : c.isDigit = true) (hd : d.isDigit = false) :
    c ≠ d := by
  intro he
  rw [he] at h
  rw [h] at hd
  exact absurd hd (by decide)

theorem takeWhile_all_append {p : Char → Bool} (ds t : List Char)
    (h : ∀ c ∈ ds, p c = true) :
    (ds ++ t).takeWhile p = ds ++ t.takeWhile p := by
  rw [List.takeWhile_append, if_pos]
  rw [List.takeWhile_eq_self_iff.mpr h]

theorem dropWhile_of_not_head {p : Char → Bool} (l : List Char)
    (h : ∀ c ∈ l, p c = false) : l.dropWhile p = l := by
  cases l with
  | nil => rfl
  | cons c cs =>
    rw [List.dropWhile_cons_of_neg]
    rw [h c (by simp)]
    decide

theorem pyStrip_of_noWs (l : List Char) (h : ∀ c ∈ l, isPySpace c = false) :
    pyStrip l = l := by
  unfold pyStrip
  rw [dropWhile_of_not_head l h]
  rw [dropWhile_of_not_head l.reverse (by intro c hc; exact h c (List.mem_reverse.mp hc))]
  exact List.reverse_reverse l

theorem runAux_digits (r : List Char) : ∀ n k, r.all Char.isDigit = true →
    runAux n k r = some (r.foldl (fun a c => 10 * a + dVal c) n, k + r.length) := by
  induction r with
  | nil => intro n k _; simp [runAux]
  | cons c cs ih =>
    intro n k hall
    rw [List.all_cons, Bool.and_eq_true] at hall
    unfold runAux
    rw [if_neg (fun he => absurd hall.1 (by rw [he]; decide))]
    rw [if_pos hall.1]
    rw [ih _ _ hall.2]
    simp only [List.foldl_cons, List.length_cons]
    congr 2
    omega

theorem runVal_digits (l : List Char) (hne : l ≠ []) (hd : l.all Char.isDigit = true) :
    runVal l = some (digitsToNat l, l.length) := by
  cases l with
  | nil => exact absurd rfl hne
  | cons c cs =>
    rw [List.all_cons, Bool.and_eq_true] at hd
    unfold runVal
    dsimp only
    rw [if_pos hd.1]
    rw [runAux_digits cs _ _ hd.2]
    unfold digitsToNat
    simp only [List.foldl_cons, List.length_cons]
    congr 2
    · simp
    · omega

/-- Python `float` on a nonempty all-digit string is its base-10 value. -/
theorem pyFloat_digits (l : List Char) (hne : l ≠ []) (hd : l.all Char.isDigit = true) :
    pyFloat l = some ((digitsToNat l : ℚ)) := by
  rw [List.all_eq_true] at hd
  have hstrip : pyStrip l = l :=
    pyStrip_of_noWs l (fun c hc => digit_not_ws c (hd c hc))
  unfold pyFloat
  rw [hstrip]
  cases l with
  | nil => exact absurd rfl hne
  | cons c cs =>
    dsimp only
    have hc : c.isDigit = true := hd c (by simp)
    rw [if_neg (digit_ne hc (by decide))]
    rw [if_neg (digit_ne hc (by decide))]
    unfold pyFloatUnsigned
    have htw : (c :: cs).takeWhile (fun x => x.isDigit || x = '_') = c :: cs := by
      rw [List.takeWhile_eq_self_iff]
      intro x hx
      rw [hd x hx]
      rfl
    rw [htw, List.drop_length]
    unfold pyFUAux
    rw [runVal_digits (c :: cs) hne (List.all_eq_true.mpr hd)]
    rfl

/-- On a cleaned string of the exact shape digits-dot-three-digits, the
receipt normalization removes the dot (thousands separator). -/
theorem receiptNormCore_dotThree (ds bs : List Char) (hne : ds ≠ [])
    (hds : ds.all Char.isDigit = true) (hlen : bs.length = 3)
    (hbs : bs.all Char.isDigit = true) :
    receiptNormCore (ds ++ '.' :: bs) = ds ++ bs := by
  have hds' := List.all_eq_true.mp hds
  have hbs' := List.all_eq_true.mp hbs
  have htw : (ds ++ '.' :: bs).takeWhile Char.isDigit = ds := by
    rw [takeWhile_all_append ds _ hds']
    rw [List.takeWhile_cons_of_neg (by decide)]
    exact List.append_nil ds
  have hdt : dotThree (ds ++ '.' :: bs) = true := by
    unfold dotThree
    dsimp only
    rw [htw, List.drop_left]
    simp [hne, hlen, hbs]
  have hfil : (ds ++ '.' :: bs).filter (fun c => c ≠ '.') = ds ++ bs := by
    rw [List.filter_append]
    rw [List.filter_eq_self.mpr (fun a ha => decide_eq_true (digit_ne (hds' a ha) (by decide)))]
    rw [List.filter_cons_of_neg (by decide)]
    rw [List.filter_eq_self.mpr (fun a ha => decide_eq_true (digit_ne (hbs' a ha) (by decide)))]
  have hcnt : (ds ++ bs).count '.' = 0 := by
    rw [List.count_eq_zero]
    intro hmem
    rcases List.mem_append.mp hmem with h | h
    · exact digit_ne (hds' _ h) (by decide) rfl
    · exact digit_ne (hbs' _ h) (by decide) rfl
  unfold receiptNormCore
  rw [if_pos hdt, hfil]
  rw [if_neg (by rw [hcnt]; decide)]

theorem count_filter_dot_zero (s : List Char) :
    (s.filter (fun c => c ≠ '.')).count '.' = 0 := by
  rw [List.count_eq_zero]
  intro hmem
  have := (List.mem_filter.mp hmem).2
  simp at this

/-- When at least two dots remain, the receipt normalization removes all of
them. -/
theorem receiptNormCore_multiDot (s : List Char) (hcnt : 2 ≤ s.count '.') :
    receiptNormCore s = s.filter (fun c => c ≠ '.') := by
  unfold receiptNormCore
  by_cases hdt : dotThree s = true
  · rw [if_pos hdt]
    rw [if_neg (by rw [count_filter_dot_zero]; decide)]
  · rw [if_neg hdt]
    rw [if_pos hcnt]

/-- C3 counterexample: the claim extends the locale rule to "amount parsing
across the extractors, including the amount cell of a CSV row", but the CSV
cell cleaning removes commas instead of converting them to dots and applies
no thousands-separator rule, so a CSV amount cell `150,50` parses as 15050
(not 150.50) and `150.000` parses as 150 (not 150000). -/
theorem C3_counterexample :
    ((parse_csv "Date;Amount\nx;150,50").map fun e => e.amount) = [some 15050] ∧
    ((parse_csv "Date;Amount\nx;150.000").map fun e => e.amount) = [some 150] ∧
    pyFloat (cleanCell "150,50".toList) = some 15050 ∧
    pyFloat (cleanCell "150.000".toList) = some 150 ∧
    ¬ ((15050 : ℚ) = 301 / 2) ∧ ¬ ((150 : ℚ) = 150000) := by decide

/-- C3 amended: the locale rule holds for the receipt extractor's total
amount: on the cleaned string (spaces removed, commas unified to dots), a
string of the exact shape digits-dot-three-digits parses with the dot
dropped as a thousands separator; a digits-and-dots string in which at least
two dots remain parses with all dots removed as an integer; concretely
`150.000` yields 150000, `1.500.000` yields 1500000, `150,50` yields 150.50,
and an unparseable token such as `.` yields no amount. The SMS and CSV
extractors do not follow this rule: they delete commas and spaces and pass
the cell to `float` unchanged. -/
theorem C3_theorem :
    (∀ ds bs : List Char, ds ≠ [] → ds.all Char.isDigit = true →
      bs.length = 3 → bs.all Char.isDigit = true →
      pyFloat (receiptNormCore (ds ++ '.' :: bs)) =
        some ((digitsToNat (ds ++ bs) : ℚ))) ∧
    (∀ s : List Char, 2 ≤ s.count '.' →
      (∀ c ∈ s, c.isDigit = true ∨ c = '.') →
      s.filter (fun c => c ≠ '.') ≠ [] →
      pyFloat (receiptNormCore s) =
        some ((digitsToNat (s.filter (fun c => c ≠ '.')) : ℚ))) ∧
    receiptAmtOfGroup "150.000".toList = some 150000 ∧
    receiptAmtOfGroup "1.500.000".toList = some 1500000 ∧
    receiptAmtOfGroup "150,50".toList = some (301 / 2) ∧
    receiptAmtOfGroup ".".toList = none ∧
    pyFloat (smsCleanAmt "150,000.00".toList) = some 150000 := by
  refine ⟨?_, ?_, by decide, by decide, by decide, by decide, by decide⟩
  · intro ds bs hne hds hlen hbs
    rw [receiptNormCore_dotThree ds bs hne hds hlen hbs]
    refine pyFloat_digits _ ?_ ?_
    · cases ds with
      | nil => exact absurd rfl hne
      | cons c cs => simp
    · rw [List.all_append]
      rw [hds, hbs]
      rfl
  · intro s hcnt hch hne
    rw [receiptNormCore_multiDot s hcnt]
    refine pyFloat_digits _ hne ?_
    rw [List.all_eq_true]
    intro x hx
    obtain ⟨hxs, hxne⟩ := List.mem_filter.mp hx
    rcases hch x hxs with h | h
    · exact h
    · rw [h] at hxne
      simp at hxne

theorem C3_witness :
    ("15".toList ≠ [] ∧ "15".toList.all Char.isDigit = true ∧
      "050".toList.length = 3 ∧ "050".toList.all Char.isDigit = true) ∧
    pyFloat (receiptNormCore ("15".toList ++ '.' :: "050".toList)) =
      some ((digitsToNat ("15".toList ++ "050".toList) : ℚ)) :=
  ⟨by decide, C3_theorem.1 "15".toList "050".toList (by decide) (by decide)
    (by decide) (by decide)⟩

end Finsplit
